import Mathlib

/-!
# The IMAP folder directory of hMailServer (`IMAPFolders.cpp`)

A shallow embedding of `HM::IMAPFolders`: the folder tree, the name and path
lookups, path creation and the two-pass reload from the store, followed by the
properties of the folder-hierarchy specification that were checked against it.

Machine integers (`__int64`) are `Int`; no arithmetic is performed on them in
this file of the server, so no wrap-around occurs.  Objects held through
`std::shared_ptr` are values of the tree type below where the server only
reads or rebuilds them, and cells of an id-indexed heap inside `Refresh`,
where nodes are linked to each other while they are being built.
-/

namespace HM

/-! ## Data model -/

/-- Modelled from the spec: `String::Equals(other, caseSensitive)` belongs to the
server's string class, which is not part of the source file; the spec says names
are compared case-insensitively.  The case-insensitive branch compares the two
strings after lowering every character. -/
def Equals (a b : String) (bCaseSensitive : Bool) : Bool :=
  if bCaseSensitive then decide (a = b)
  else decide (a.data.map Char.toLower = b.data.map Char.toLower)

/-- The scalar fields of one folder (spec section 3, FolderNode). -/
structure FolderData where
  id : Int
  account_id : Int
  parent_id : Int
  name : String
  is_subscribed : Bool
  current_uid : Nat
  creation_time : String
deriving DecidableEq, Repr

mutual
/-- One folder: its fields and the directory of its sub folders. -/
inductive IMAPFolder where
  | mk (data : FolderData) (sub_folders_ : IMAPFolders)
/-- A directory: `account_id_`, `parent_folder_id_` and the ordered children
(`vecObjects`). -/
inductive IMAPFolders where
  | mk (account_id_ : Int) (parent_folder_id_ : Int) (vecObjects : List IMAPFolder)
end

/-- The scalar fields of a folder. -/
def IMAPFolder.data : IMAPFolder → FolderData
  | .mk d _ => d

/-- `IMAPFolder::GetSubFolders`. -/
def IMAPFolder.GetSubFolders : IMAPFolder → IMAPFolders
  | .mk _ s => s

/-- `IMAPFolder::GetID`. -/
def IMAPFolder.GetID (f : IMAPFolder) : Int := f.data.id

/-- `IMAPFolder::GetFolderName`. -/
def IMAPFolder.GetFolderName (f : IMAPFolder) : String := f.data.name

/-- `IMAPFolder::GetParentFolderID`. -/
def IMAPFolder.GetParentFolderID (f : IMAPFolder) : Int := f.data.parent_id

/-- `IMAPFolder::GetAccountID`. -/
def IMAPFolder.GetAccountID (f : IMAPFolder) : Int := f.data.account_id

/-- `IMAPFolders::GetAccountID` (source lines 297-305). -/
def IMAPFolders.GetAccountID : IMAPFolders → Int
  | .mk a _ _ => a

/-- `IMAPFolders::GetParentID` (source lines 286-295). -/
def IMAPFolders.GetParentID : IMAPFolders → Int
  | .mk _ p _ => p

/-- The children of a directory, in order. -/
def IMAPFolders.vecObjects : IMAPFolders → List IMAPFolder
  | .mk _ _ v => v

/-- `IMAPFolders::IMAPFolders(iAccountID, iParentFolderID)` (source lines 22-27). -/
def IMAPFolders.ctor (iAccountID iParentFolderID : Int) : IMAPFolders :=
  .mk iAccountID iParentFolderID []

/-- `IMAPFolders::IMAPFolders()` (source lines 29-34): both ids are `0`. -/
def IMAPFolders.ctorDefault : IMAPFolders :=
  .mk 0 0 []

/-- Modelled from the spec: `Collection::AddItem` is inherited from a base class
that is not part of the source file; the spec says the new node is appended to
the container's children. -/
def IMAPFolders.AddItem : IMAPFolders → IMAPFolder → IMAPFolders
  | .mk a p v, f => .mk a p (v ++ [f])

/-- Modelled from the spec: the constructor `IMAPFolder(iAccountID,
iParentFolderID)` is not part of the source file.  The new node carries the two
given ids; it has no durable id yet (`0`), an empty name, is not subscribed and
its UID counter is `0`.  The clock is outside the embedding, so the creation
time of a new node is left empty. -/
def IMAPFolder.ctor (iAccountID iParentFolderID : Int) : FolderData :=
  { id := 0, account_id := iAccountID, parent_id := iParentFolderID, name := "",
    is_subscribed := false, current_uid := 0, creation_time := "" }

/-- Modelled from the spec: `IMAPFolder::GetSubFolders` creates the child
directory of a node on first use; it is not part of the source file.  A
directory represents "the direct children of parent_id within account_id", so
the child directory of a node is bound to the node's account and the node's id. -/
def IMAPFolder.newSubFolders (d : FolderData) : IMAPFolders :=
  IMAPFolders.ctor d.account_id d.id

/-! ## Lookups -/

mutual
/-- `IMAPFolders::GetFolderByName` (source lines 114-137). -/
def IMAPFolders.GetFolderByName (sName : String) (bRecursive : Bool) :
    IMAPFolders → Option IMAPFolder
  | .mk _ _ vec => GetFolderByName.scan sName bRecursive vec
/-- The loop over `vecObjects` of `GetFolderByName`. -/
def GetFolderByName.scan (sName : String) (bRecursive : Bool) :
    List IMAPFolder → Option IMAPFolder
  | [] => none
  | .mk d sub :: rest =>
    if Equals d.name sName false then some (.mk d sub)
    else if bRecursive then
      match IMAPFolders.GetFolderByName sName bRecursive sub with
      | some pFolder => some pFolder
      | none => GetFolderByName.scan sName bRecursive rest
    else GetFolderByName.scan sName bRecursive rest
end

/-- Modelled from the spec: the default value of `bRecursive`, declared in
`IMAPFolders.h`, which is not part of the source; path lookup resolves each
segment by a non-recursive lookup (spec section 4.3). -/
def GetFolderByName.bRecursiveDefault : Bool := false

/-- The loop of `GetFolderByFullPath` (source lines 162-177): `pCurFolder` and
the segments that remain. -/
def GetFolderByFullPath.loop (self : IMAPFolders) :
    Option IMAPFolder → List String → Option IMAPFolder
  | pCurFolder, [] => pCurFolder
  | some cur, sFoldName :: rest =>
    GetFolderByFullPath.loop self
      (cur.GetSubFolders.GetFolderByName sFoldName GetFolderByName.bRecursiveDefault) rest
  | none, sFoldName :: rest =>
    match self.GetFolderByName sFoldName GetFolderByName.bRecursiveDefault with
    | none => none
    | some f => GetFolderByFullPath.loop self (some f) rest

/-- `IMAPFolders::GetFolderByFullPath(const std::vector<String>&)` (source lines
155-181). -/
def IMAPFolders.GetFolderByFullPath (self : IMAPFolders) (vecFolders : List String) :
    Option IMAPFolder :=
  GetFolderByFullPath.loop self none vecFolders

/-! ## Path creation -/

/-- Modelled from the spec: `PersistentIMAPFolder::SaveObject` is not part of
the source file.  Spec section 6: `insert(node) -> assigned_id`, failing with a
store error on I/O or constraint failure.  The gateway is a state machine over
its own state `σ`; `some id` is a successful write that assigned `id`, `none`
is a failed write. -/
structure PersistentIMAPFolder (σ : Type) where
  SaveObject : σ → FolderData → σ × Option Int

/-- The node after `SaveObject` returned: a successful write stamps the durable
id, a failed write leaves the node as it was. -/
def PersistentIMAPFolder.stamp (pFolder : FolderData) : Option Int → FolderData
  | some id => { pFolder with id := id }
  | none => pFolder

/-- One call of `SaveObject` made by `CreatePath`: the node as it was handed to
the gateway, what the gateway answered, and the identity of the container the
node was appended to afterwards. -/
structure SaveRecord where
  saved : FolderData
  outcome : Option Int
  container_account_id : Int
  container_parent_id : Int
deriving DecidableEq, Repr

/-- What `CreatePath` leaves behind: the starting container as mutated, the
state of the gateway, and the calls of `SaveObject` in order. -/
structure CreateResult (σ : Type) where
  container : IMAPFolders
  db : σ
  writes : List SaveRecord

/-- The mutation `CreatePath` performs through the pointer `pParentCheck`: the
first child whose name matches gets `sub` as its directory of sub folders.  With
the exclusive, tree-shaped ownership of spec section 3 the mutated object is
exactly that child. -/
def CreatePath.storeSub (sName : String) (sub : IMAPFolders) :
    List IMAPFolder → List IMAPFolder
  | [] => []
  | .mk d s :: rest =>
    if Equals d.name sName false then .mk d sub :: rest
    else .mk d s :: CreatePath.storeSub sName sub rest

/-- The value of `iParentFolderID` (source lines 237-239): the id of
`pParentFolder`, or `-1` when no folder has been descended through yet. -/
def CreatePath.parentIdOf (pParentFolder : Option IMAPFolder) : Int :=
  match pParentFolder with
  | some p => p.GetID
  | none => -1

/-- The folder `pParentFolder` points to when the loop of `CreatePath` reaches
the end of the path or its first missing segment: the last folder found along
the path (source lines 225-235), or the starting value when the first segment
is missing. -/
def CreatePath.lastFound : List String → IMAPFolders → Option IMAPFolder → Option IMAPFolder
  | [], _, pParentFolder => pParentFolder
  | sTopLevel :: rest, pParentContainer, pParentFolder =>
    match pParentContainer.GetFolderByName sTopLevel false with
    | some pParentCheck =>
      CreatePath.lastFound rest pParentCheck.GetSubFolders (some pParentCheck)
    | none => pParentFolder

/-- The node `CreatePath` builds for a missing segment (source lines 237-243):
its parent id is the id of `pParentFolder`, or `-1` when there is none, and its
account is `account_id_` of the directory the method is invoked on. -/
def CreatePath.newFolder (account_id_ : Int) (bAutoSubscribe : Bool) (sTopLevel : String)
    (pParentFolder : Option IMAPFolder) : FolderData :=
  { IMAPFolder.ctor account_id_ (CreatePath.parentIdOf pParentFolder) with
    name := sTopLevel, is_subscribed := bAutoSubscribe }

/-- The new node after `SaveObject` (source line 245) returned. -/
def CreatePath.stamped {σ : Type} (gw : PersistentIMAPFolder σ) (account_id_ : Int)
    (bAutoSubscribe : Bool) (sTopLevel : String) (pParentFolder : Option IMAPFolder)
    (db : σ) : FolderData :=
  PersistentIMAPFolder.stamp
    (CreatePath.newFolder account_id_ bAutoSubscribe sTopLevel pParentFolder)
    (gw.SaveObject db
      (CreatePath.newFolder account_id_ bAutoSubscribe sTopLevel pParentFolder)).2

/-- The `while` loop of `CreatePath` (source lines 220-256).  `account_id_` is
the account of the directory the method is invoked on; `pParentContainer` and
`pParentFolder` are the loop variables of the source. -/
def CreatePath.loop {σ : Type} (gw : PersistentIMAPFolder σ) (account_id_ : Int)
    (bAutoSubscribe : Bool) :
    List String → IMAPFolders → Option IMAPFolder → σ → CreateResult σ
  | [], pParentContainer, _, db => ⟨pParentContainer, db, []⟩
  | sTopLevel :: rest, pParentContainer, pParentFolder, db =>
    match pParentContainer.GetFolderByName sTopLevel false with
    | some pParentCheck =>
      let r := CreatePath.loop gw account_id_ bAutoSubscribe rest
        pParentCheck.GetSubFolders (some pParentCheck) db
      ⟨.mk pParentContainer.GetAccountID pParentContainer.GetParentID
          (CreatePath.storeSub sTopLevel r.container pParentContainer.vecObjects),
        r.db, r.writes⟩
    | none =>
      let pFolder := CreatePath.newFolder account_id_ bAutoSubscribe sTopLevel pParentFolder
      let saved := gw.SaveObject db pFolder
      let pStamped := PersistentIMAPFolder.stamp pFolder saved.2
      let r := CreatePath.loop gw account_id_ bAutoSubscribe rest
        (IMAPFolder.newSubFolders pStamped)
        (some (.mk pStamped (IMAPFolder.newSubFolders pStamped))) saved.1
      ⟨pParentContainer.AddItem (.mk pStamped r.container), r.db,
        { saved := pFolder, outcome := saved.2,
          container_account_id := pParentContainer.GetAccountID,
          container_parent_id := pParentContainer.GetParentID } :: r.writes⟩

/-- `IMAPFolders::CreatePath` (source lines 205-257), invoked on `self` with the
starting container `pParentContainer`. -/
def IMAPFolders.CreatePath {σ : Type} (gw : PersistentIMAPFolder σ) (self : IMAPFolders)
    (pParentContainer : IMAPFolders) (vecFolderPath : List String) (bAutoSubscribe : Bool)
    (db : σ) : CreateResult σ :=
  CreatePath.loop gw self.GetAccountID bAutoSubscribe vecFolderPath pParentContainer none db

mutual
/-- Every child directory below `dir` is bound to `account` and to the id of the
folder that owns it (spec section 3: a directory represents "the direct children
of parent_id within account_id"). -/
def IMAPFolders.subBound (account : Int) : IMAPFolders → Bool
  | .mk _ _ vec => subBound.list account vec
/-- The same for a list of sibling folders. -/
def subBound.list (account : Int) : List IMAPFolder → Bool
  | [] => true
  | .mk d sub :: rest =>
    decide (sub.GetAccountID = account) && decide (sub.GetParentID = d.id) &&
      IMAPFolders.subBound account sub && subBound.list account rest
end

/-! ## Reload from the store -/

/-- One row of the query of `Refresh` (source lines 48-50), as read by the
getters of the record set (source lines 64-69). -/
structure Row where
  folderid : Int
  folderparentid : Int
  foldername : String
  folderissubscribed : Int
  foldercurrentuid : Int
  foldercreationtime : String
deriving DecidableEq, Repr

/-- A folder object while `Refresh` is linking the nodes: its fields and the
pointers (keys of the folder map) held by its directory of sub folders. -/
structure FolderObject where
  data : FolderData
  subItems : List Int
deriving DecidableEq, Repr

/-- The `folderMap` of `Refresh`: folder id to folder object. -/
abbrev FolderMap := List (Int × FolderObject)

/-- `folderMap.find(key)`. -/
def FolderMap.find : FolderMap → Int → Option FolderObject
  | [], _ => none
  | (k, v) :: rest, key => if k = key then some v else FolderMap.find rest key

/-- `folderMap[key] = value`: assigns to the entry of `key`, creating it when
the key is new. -/
def FolderMap.assign : FolderMap → Int → FolderObject → FolderMap
  | [], key, value => [(key, value)]
  | (k, v) :: rest, key, value =>
    if k = key then (k, value) :: rest else (k, v) :: FolderMap.assign rest key value

/-- `parentIt->second->GetSubFolders()->AddItem(folder)`: the object stored under
`parentID` gets one more pointer at the end of its sub folders. -/
def FolderMap.addSubItem : FolderMap → Int → Int → FolderMap
  | [], _, _ => []
  | (k, v) :: rest, parentID, folderID =>
    if k = parentID then (k, { v with subItems := v.subItems ++ [folderID] }) :: rest
    else (k, v) :: FolderMap.addSubItem rest parentID folderID

/-- The keys of the folder map. -/
def FolderMap.keys (m : FolderMap) : List Int := m.map Prod.fst

/-- The node built from one row (source lines 64-76).  The UID is narrowed to
`unsigned int`; the date conversion `Time::GetDateFromSystemDate` is outside the
source file and the creation time keeps the text of the store. -/
def Refresh.makeFolder (account_id_ : Int) (r : Row) : FolderObject :=
  { data :=
      { IMAPFolder.ctor account_id_ r.folderparentid with
        id := r.folderid, name := r.foldername,
        is_subscribed := decide (r.folderissubscribed = 1),
        current_uid := (r.foldercurrentuid % 2 ^ 32).toNat,
        creation_time := r.foldercreationtime },
    subItems := [] }

/-- First pass of `Refresh` (source lines 61-81). -/
def Refresh.firstPass (account_id_ : Int) (rows : List Row) : FolderMap :=
  rows.foldl (fun m r => FolderMap.assign m r.folderid (Refresh.makeFolder account_id_ r)) []

/-- A call of `ErrorManager::ReportError` made by `Refresh` (source lines
106-108); the message is kept as the two numbers it is formatted from. -/
structure ErrorReport where
  severity : String
  code : Nat
  source : String
  parentID : Int
  folderID : Int
deriving DecidableEq, Repr

/-- The report of an orphaned row. -/
def Refresh.orphanReport (parentID folderID : Int) : ErrorReport :=
  { severity := "Medium", code := 5125, source := "IMAPFolders::Refresh()",
    parentID := parentID, folderID := folderID }

/-- The state of the second pass: the pointers in `vecObjects` of the directory
being refreshed, the folder objects, and the error reports so far. -/
structure Refresh.State where
  vecObjects : List Int
  folderMap : FolderMap
  errors : List ErrorReport
deriving DecidableEq, Repr

/-- The body of the second loop (source lines 86-110) for the map entry with key
`folderID`.  The loop runs over the entries of the map, so a key without an
entry is passed over. -/
def Refresh.visit (st : Refresh.State) (folderID : Int) : Refresh.State :=
  match st.folderMap.find folderID with
  | none => st
  | some folder =>
    let parentID := folder.data.parent_id
    if parentID = -1 then { st with vecObjects := st.vecObjects ++ [folderID] }
    else
      match st.folderMap.find parentID with
      | some _ => { st with folderMap := st.folderMap.addSubItem parentID folderID }
      | none => { st with errors := st.errors ++ [Refresh.orphanReport parentID folderID] }

/-- Second pass of `Refresh` (source lines 83-111).  `iteration` is the order in
which the iterator of the unordered map yields the keys; the language leaves
that order open. -/
def Refresh.secondPass (folderMap : FolderMap) (iteration : List Int) : Refresh.State :=
  iteration.foldl Refresh.visit { vecObjects := [], folderMap := folderMap, errors := [] }

/-- The tree below a folder object, read through the pointers of the heap down
to `depth` levels.  A folder object that is reached from `vecObjects` of the
refreshed directory lies on a chain of distinct keys, so as many levels as the
map has entries show all of it. -/
def Refresh.materialize (heap : FolderMap) : Nat → FolderObject → IMAPFolder
  | 0, obj => .mk obj.data (IMAPFolder.newSubFolders obj.data)
  | depth + 1, obj =>
    .mk obj.data (.mk obj.data.account_id obj.data.id
      (obj.subItems.filterMap
        (fun key => (heap.find key).map (Refresh.materialize heap depth))))

/-- What `Refresh` leaves behind: the directory and the error reports. -/
structure RefreshResult where
  directory : IMAPFolders
  errors : List ErrorReport

/-- `IMAPFolders::Refresh` (source lines 42-112).  `pRS` is the record set the
store returned (`none` when `OpenRecordset` gave no record set) and `iteration`
the order in which the unordered map is traversed. -/
def IMAPFolders.Refresh (self : IMAPFolders) (pRS : Option (List Row))
    (iteration : List Int) : RefreshResult :=
  let cleared : IMAPFolders := .mk self.GetAccountID self.GetParentID []
  match pRS with
  | none => ⟨cleared, []⟩
  | some rows =>
    let st := Refresh.secondPass (Refresh.firstPass self.GetAccountID rows) iteration
    ⟨.mk self.GetAccountID self.GetParentID
        (st.vecObjects.filterMap
          (fun key => (st.folderMap.find key).map
            (Refresh.materialize st.folderMap st.folderMap.length))),
      st.errors⟩

/-! ## Reading the second pass -/

/-- The parent id stored in the map entry of `key`, when there is one. -/
def FolderMap.parentOf (m : FolderMap) (key : Int) : Option Int :=
  (m.find key).map (fun o => o.data.parent_id)

/-- The entry of `key` is a top-level folder: its parent id is `-1`. -/
def Refresh.isTop (m : FolderMap) (key : Int) : Bool :=
  match m.parentOf key with
  | some p => decide (p = -1)
  | none => false

/-- The entry of `key` is an orphan: its parent id is not `-1` and is no key of
the map. -/
def Refresh.isOrphan (m : FolderMap) (key : Int) : Bool :=
  match m.parentOf key with
  | some p => decide (p ≠ -1) && !(m.find p).isSome
  | none => false

/-- The entry of `key` is linked below the entry of `parent`: its parent id is
`parent`, which is not `-1` and is a key of the map. -/
def Refresh.isChildOf (m : FolderMap) (parent key : Int) : Bool :=
  match m.parentOf key with
  | some p => decide (p ≠ -1) && decide (p = parent) && (m.find p).isSome
  | none => false

/-- The report the second pass files for `key`. -/
def Refresh.reportFor (m : FolderMap) (key : Int) : ErrorReport :=
  Refresh.orphanReport ((m.parentOf key).getD 0) key

/-- What the second pass reads from the map: parent ids and presence of keys. -/
def Refresh.sameLinks (m1 m2 : FolderMap) : Prop :=
  m1.parentOf = m2.parentOf ∧ ∀ k, (m1.find k).isSome = (m2.find k).isSome

/-! ## Pre-order listing -/

mutual
/-- All folders below a directory in depth-first pre-order: every child is
followed by the folders below it, in child order. -/
def IMAPFolders.preorder : IMAPFolders → List IMAPFolder
  | .mk _ _ vec => preorder.list vec
/-- Pre-order listing of a list of sibling folders. -/
def preorder.list : List IMAPFolder → List IMAPFolder
  | [] => []
  | .mk d sub :: rest => .mk d sub :: (IMAPFolders.preorder sub ++ preorder.list rest)
end

/-- The test `GetFolderByName` applies to one folder: its name equals `sName`
without regard to case. -/
def IMAPFolder.hasName (sName : String) (f : IMAPFolder) : Bool :=
  Equals f.GetFolderName sName false

/-! ## Lookup by id, removal, stamping and naming -/

mutual
/-- `IMAPFolders::GetItemByDBIDRecursive` (source lines 267-284). -/
def IMAPFolders.GetItemByDBIDRecursive (folderID : Int) : IMAPFolders → Option IMAPFolder
  | .mk _ _ vec => GetItemByDBIDRecursive.scan folderID vec
/-- The loop over `vecObjects` of `GetItemByDBIDRecursive`. -/
def GetItemByDBIDRecursive.scan (folderID : Int) : List IMAPFolder → Option IMAPFolder
  | [] => none
  | .mk d sub :: rest =>
    if d.id = folderID then some (.mk d sub)
    else
      match IMAPFolders.GetItemByDBIDRecursive folderID sub with
      | some foundFolder => some foundFolder
      | none => GetItemByDBIDRecursive.scan folderID rest
end

/-- The test `GetItemByDBIDRecursive` applies to one folder. -/
def IMAPFolder.hasID (folderID : Int) (f : IMAPFolder) : Bool :=
  decide (f.GetID = folderID)

/-- The loop of `RemoveFolder` (source lines 192-202): the first folder whose id
is `lRemoveFolderID` is erased and the loop ends. -/
def RemoveFolder.erase (lRemoveFolderID : Int) : List IMAPFolder → List IMAPFolder
  | [] => []
  | pFolder :: rest =>
    if pFolder.GetID = lRemoveFolderID then rest
    else pFolder :: RemoveFolder.erase lRemoveFolderID rest

/-- What `RemoveFolder` can reach: the directory it is invoked on, the folder it
is given, and the state of the persistence gateway. -/
structure RemoveFolder.World (σ : Type) where
  self : IMAPFolders
  pFolderToRemove : IMAPFolder
  db : σ

/-- `IMAPFolders::RemoveFolder` (source lines 183-203).  Only `vecObjects` of the
directory is written; the folder given is only asked for its id, and no call to
the persistence gateway is made. -/
def IMAPFolders.RemoveFolder {σ : Type} (w : RemoveFolder.World σ) : RemoveFolder.World σ :=
  { w with
    self := .mk w.self.GetAccountID w.self.GetParentID
      (RemoveFolder.erase w.pFolderToRemove.GetID w.self.vecObjects) }

/-- Modelled from the spec: `IMAPFolder::SetAccountID`, a setter of the folder
class, which is not part of the source file; it writes the account id. -/
def IMAPFolder.SetAccountID : IMAPFolder → Int → IMAPFolder
  | .mk d sub, iAccountID => .mk { d with account_id := iAccountID } sub

/-- Modelled from the spec: `IMAPFolder::SetParentFolderID`, a setter of the
folder class, which is not part of the source file; it writes the parent id. -/
def IMAPFolder.SetParentFolderID : IMAPFolder → Int → IMAPFolder
  | .mk d sub, iParentID => .mk { d with parent_id := iParentID } sub

/-- `IMAPFolders::PreSaveObject` (source lines 259-265): the object after the
two setters, and the value returned.  The XML node given to the hook is not
read. -/
def IMAPFolders.PreSaveObject (self : IMAPFolders) (pObject : IMAPFolder) :
    IMAPFolder × Bool :=
  ((pObject.SetAccountID self.GetAccountID).SetParentFolderID self.GetParentID, true)

/-- `IMAPFolders::GetIsPublicFolders_` (source lines 316-323). -/
def IMAPFolders.GetIsPublicFolders_ (self : IMAPFolders) : Bool :=
  if self.GetAccountID = 0 then true else false

/-- `IMAPFolders::GetCollectionName` (source lines 307-314). -/
def IMAPFolders.GetCollectionName (self : IMAPFolders) : String :=
  if self.GetIsPublicFolders_ then "PublicFolders" else "Folders"

/-! ## Path resolution as the spec words it -/

/-- The folder a segment sequence names, in the words of spec section 4.3:
segment 0 is resolved by a non-recursive lookup in this directory, every later
segment by a non-recursive lookup in the child directory of the folder resolved
before it; a segment that fails to resolve ends the walk with "not found", and
so does the empty sequence. -/
def IMAPFolders.resolveChain : IMAPFolders → List String → Option IMAPFolder
  | _, [] => none
  | dir, [sName] => dir.GetFolderByName sName false
  | dir, sName :: next :: rest =>
    match dir.GetFolderByName sName false with
    | none => none
    | some f => IMAPFolders.resolveChain f.GetSubFolders (next :: rest)

/-- The directory in which the segment after `segments` is looked up: this
directory when `segments` is empty, otherwise the child directory of the folder
`segments` resolves to. -/
def IMAPFolders.directoryAt (dir : IMAPFolders) (segments : List String) :
    Option IMAPFolders :=
  match segments with
  | [] => some dir
  | s :: rest => (dir.resolveChain (s :: rest)).map IMAPFolder.GetSubFolders

/-! ## Sibling names -/

mutual
/-- Invariant I2 throughout a tree: in the directory and in every directory
below it, no two children have names that are equal without regard to case. -/
def IMAPFolders.namesUnique : IMAPFolders → Bool
  | .mk _ _ vec => namesUnique.list vec
/-- The same for a list of sibling folders: no later sibling has the name of an
earlier one, and the invariant holds below every sibling. -/
def namesUnique.list : List IMAPFolder → Bool
  | [] => true
  | .mk d sub :: rest =>
    (rest.map IMAPFolder.GetFolderName).all (fun n => !Equals d.name n false) &&
      IMAPFolders.namesUnique sub && namesUnique.list rest
end

/-! ## Parent chains of the fetched rows -/

/-- Following parent ids from the row with id `key`, through fetched rows only,
reaches `-1` within `fuel` rows. -/
def Refresh.chainReachesRoot (rows : List Row) : Nat → Int → Bool
  | 0, _ => false
  | fuel + 1, key =>
    match rows.find? (fun r => decide (r.folderid = key)) with
    | none => false
    | some r =>
      if r.folderparentid = -1 then true
      else Refresh.chainReachesRoot rows fuel r.folderparentid

/-- The fetched row with id `key` lies `level` parent steps below a row whose
parent id is `-1`, every step going through a fetched row. -/
inductive Refresh.ReachesRoot (rows : List Row) : Nat → Int → Prop
  | top (r : Row) : r ∈ rows → r.folderparentid = -1 →
      Refresh.ReachesRoot rows 0 r.folderid
  | step (r : Row) (level : Nat) : r ∈ rows → r.folderparentid ≠ -1 →
      Refresh.ReachesRoot rows level r.folderparentid →
      Refresh.ReachesRoot rows (level + 1) r.folderid

/-- The fetched row with id `parent` is reached from the fetched row with id
`key` by one or more parent steps. -/
inductive Refresh.Ancestor (rows : List Row) (parent : Int) : Int → Prop
  | child (r : Row) : r ∈ rows → r.folderparentid = parent → parent ≠ -1 →
      parent ∈ rows.map Row.folderid → Refresh.Ancestor rows parent r.folderid
  | step (r : Row) : r ∈ rows → r.folderparentid ≠ -1 →
      Refresh.Ancestor rows parent r.folderparentid →
      Refresh.Ancestor rows parent r.folderid

/-- What the second pass leaves behind, read off the fetched rows: which keys
have a folder object, which keys are in `vecObjects` of the refreshed directory
and which are among the sub folders of which object, each list without
repetition. -/
structure Refresh.Built (rows : List Row) (st : Refresh.State) : Prop where
  ids_nodup : (rows.map Row.folderid).Nodup
  keys_eq : st.folderMap.keys = rows.map Row.folderid
  id_of : ∀ k o, st.folderMap.find k = some o → o.data.id = k
  vec : ∀ k, k ∈ st.vecObjects ↔ ∃ r ∈ rows, r.folderid = k ∧ r.folderparentid = -1
  sub : ∀ p o, st.folderMap.find p = some o →
    ∀ k, k ∈ o.subItems ↔ ∃ r ∈ rows, r.folderid = k ∧ r.folderparentid = p ∧ p ≠ -1
  vec_nodup : st.vecObjects.Nodup
  sub_nodup : ∀ p o, st.folderMap.find p = some o → o.subItems.Nodup

/-! ## Example data -/

namespace Example

/-- A folder without sub folders. -/
def leaf (id account parent : Int) (name : String) : IMAPFolder :=
  .mk ⟨id, account, parent, name, false, 0, ""⟩ (.mk account id [])

/-- A folder with the given sub folders. -/
def node (id account parent : Int) (name : String) (sub : List IMAPFolder) : IMAPFolder :=
  .mk ⟨id, account, parent, name, false, 0, ""⟩ (.mk account id sub)

/-- The top-level directory of account 1 holding the single folder `A`. -/
def onlyA : IMAPFolders := .mk 1 (-1) [leaf 1 1 (-1) "A"]

/-- Top level: `A` (id 1) with the sub folder `X` (id 2), then `X` (id 3). -/
def shadowed : IMAPFolders :=
  .mk 1 (-1) [node 1 1 (-1) "A" [leaf 2 1 1 "X"], leaf 3 1 (-1) "X"]

/-- Two top-level rows, delivered in ascending id order. -/
def twoRows : List Row :=
  [⟨1, -1, "A", 0, 0, ""⟩, ⟨2, -1, "B", 0, 0, ""⟩]

/-- The scenario of the spec: `Inbox`, `Work` below it, and the orphan `Ghost`
whose parent 99 was not fetched. -/
def scenario : List Row :=
  [⟨1, -1, "Inbox", 0, 0, ""⟩, ⟨2, 1, "Work", 0, 0, ""⟩, ⟨3, 99, "Ghost", 0, 0, ""⟩]

/-- The single row `(1, -1, Inbox)`. -/
def inboxRow : List Row :=
  [⟨1, -1, "Inbox", 0, 0, ""⟩]

/-- The folder `Inbox` of the scenario as `Refresh` builds it for account 7. -/
def inbox : IMAPFolder :=
  node 1 7 (-1) "Inbox" [leaf 2 7 1 "Work"]

/-- A gateway whose writes all succeed: in state `n` it assigns the id `n + 1`
and moves to state `n + 1`. -/
def counting : PersistentIMAPFolder Nat :=
  ⟨fun n _ => (n + 1, some (Int.ofNat (n + 1)))⟩

/-- A gateway whose writes all fail; its state counts the calls. -/
def failing : PersistentIMAPFolder Nat :=
  ⟨fun n _ => (n + 1, none)⟩

/-- A gateway whose write in state `1` (the second one, starting from `0`)
fails; the others succeed as in `counting`. -/
def failsSecond : PersistentIMAPFolder Nat :=
  ⟨fun n _ => (n + 1, if n = 1 then none else some (Int.ofNat (n + 1)))⟩

/-- The call of `SaveObject` for the segment `C` of `A / B / C` below the new
folder `B` with id 11, in account 1. -/
def recordC : SaveRecord :=
  { saved := ⟨0, 1, 11, "C", true, 0, ""⟩, outcome := some 12,
    container_account_id := 1, container_parent_id := 11 }

/-- Top level: `A` (id 1) holding `B` (id 2), then `X` (id 3): the path
`A / B` exists, `A / B / X` does not, and a folder named `X` exists elsewhere. -/
def pathAB : IMAPFolders :=
  .mk 1 (-1) [node 1 1 (-1) "A" [leaf 2 1 1 "B"], leaf 3 1 (-1) "X"]

/-- Rows with every kind of parent chain: `Inbox` at the top with `Work` below
it, a row that is its own parent, two rows that are each other's parent, the
orphan `Ghost` whose parent 99 was not fetched, and a row below the orphan. -/
def tangled : List Row :=
  [⟨1, -1, "Inbox", 0, 0, ""⟩, ⟨2, 1, "Work", 0, 0, ""⟩, ⟨5, 5, "Self", 0, 0, ""⟩,
    ⟨6, 7, "P", 0, 0, ""⟩, ⟨7, 6, "Q", 0, 0, ""⟩, ⟨8, 99, "Ghost", 0, 0, ""⟩,
    ⟨9, 8, "Below", 0, 0, ""⟩]

/-- `RemoveFolder` of the top-level folder `X` (id 3) on `shadowed`. -/
def removeThird : RemoveFolder.World Nat :=
  ⟨shadowed, leaf 3 1 (-1) "X", 0⟩

/-- `RemoveFolder` of a folder with id 2 on `shadowed`, where only a folder
below `A` has that id. -/
def removeDeep : RemoveFolder.World Nat :=
  ⟨shadowed, leaf 2 1 1 "X", 0⟩

/-- A folder of account 9 under parent 4, with one sub folder. -/
def foreign : IMAPFolder :=
  node 6 9 4 "Drafts" [leaf 8 9 6 "Old"]

end Example

/-! ## Properties -/

/-! ### Name lookup -/

theorem preorder_list_append (xs ys : List IMAPFolder) :
    preorder.list (xs ++ ys) = preorder.list xs ++ preorder.list ys := by
  induction xs with
  | nil => simp [preorder.list]
  | cons x xs ih =>
    cases x with
    | mk d sub => simp [preorder.list, ih]

mutual
theorem GetFolderByName_recursive_eq_find (sName : String) :
    ∀ dir : IMAPFolders,
      dir.GetFolderByName sName true = dir.preorder.find? (IMAPFolder.hasName sName)
  | .mk _ _ vec => by
    simp only [IMAPFolders.GetFolderByName, IMAPFolders.preorder]
    exact scan_recursive_eq_find sName vec
theorem scan_recursive_eq_find (sName : String) :
    ∀ vec : List IMAPFolder,
      GetFolderByName.scan sName true vec
        = (preorder.list vec).find? (IMAPFolder.hasName sName)
  | [] => by simp [GetFolderByName.scan, preorder.list]
  | .mk d sub :: rest => by
    have h1 := GetFolderByName_recursive_eq_find sName sub
    have h2 := scan_recursive_eq_find sName rest
    simp only [GetFolderByName.scan, preorder.list, List.find?_cons, List.find?_append,
      IMAPFolder.hasName, IMAPFolder.GetFolderName, IMAPFolder.data, h1, h2]
    cases hE : Equals d.name sName false
    · simp
      cases (IMAPFolders.preorder sub).find? (IMAPFolder.hasName sName) <;>
        simp [IMAPFolder.hasName, IMAPFolder.GetFolderName]
    · simp
end

/-- The non-recursive scan is `List.find?` with the name test. -/
theorem scan_flat_eq_find (sName : String) (vec : List IMAPFolder) :
    GetFolderByName.scan sName false vec = vec.find? (IMAPFolder.hasName sName) := by
  induction vec with
  | nil => simp [GetFolderByName.scan]
  | cons x xs ih =>
    cases x with
    | mk d sub =>
      simp only [GetFolderByName.scan, List.find?_cons, IMAPFolder.hasName,
        IMAPFolder.GetFolderName, IMAPFolder.data, ih]
      cases hE : Equals d.name sName false <;> simp [IMAPFolder.hasName, IMAPFolder.GetFolderName]

/-- C1 (defect of the code).  `GetFolderByFullPath` does not stop at a segment
that fails below an already resolved folder: with the single top-level folder
`A`, the path `A / X / A` resolves `A`, fails to resolve `X` inside `A`, and
then resolves the third segment in the directory the call was made on, so the
folder `A` is returned where "not found" is required. -/
theorem GetFolderByFullPath_resumes_at_top_level :
    Example.onlyA.GetFolderByName "A" false = some (Example.leaf 1 1 (-1) "A") ∧
    (Example.leaf 1 1 (-1) "A").GetSubFolders.GetFolderByName "X" false = none ∧
    Example.onlyA.GetFolderByFullPath ["A", "X", "A"] = some (Example.leaf 1 1 (-1) "A") :=
  ⟨rfl, rfl, rfl⟩

/-- C2 (defect of the code).  The second pass of `Refresh` follows the iteration
order of the unordered map: for two top-level rows delivered in ascending id
order and a map that yields key 2 before key 1, the children of the refreshed
directory carry the ids 2, 1 and are not in ascending folder-id order. -/
theorem Refresh_children_follow_map_iteration :
    Example.twoRows.map Row.folderid = [1, 2] ∧
    (Refresh.firstPass 1 Example.twoRows).keys.Perm [2, 1] ∧
    ((IMAPFolders.ctor 1 (-1)).Refresh (some Example.twoRows) [2, 1]).directory.vecObjects.map
      IMAPFolder.GetID = [2, 1] := by
  refine ⟨by decide, ?_, by decide⟩
  exact List.Perm.swap 2 1 []

/-- C3, counterexample.  In recursive mode a match below an earlier sibling wins
over a matching direct child: with top-level folders `A` (holding `X`, id 2) and
`X` (id 3), the recursive lookup of `X` returns the folder with id 2 although
the first direct child named `X` is the folder with id 3. -/
theorem GetFolderByName_recursive_prefers_earlier_subtree :
    (Example.shadowed.GetFolderByName "X" false).map IMAPFolder.GetID = some 3 ∧
    (Example.shadowed.GetFolderByName "X" true).map IMAPFolder.GetID = some 2 ∧
    Example.shadowed.GetFolderByName "X" true ≠ Example.shadowed.GetFolderByName "X" false := by
  refine ⟨by decide, by decide, ?_⟩
  intro h
  have h2 := congrArg (Option.map IMAPFolder.GetID) h
  revert h2
  decide

/-- C3, amended.  In recursive mode `GetFolderByName` returns, for every
directory and name, the first folder in depth-first pre-order (each child
followed by the folders below it, in child order) whose name matches without
regard to case; hence the first matching direct child is the result when no
earlier sibling and no folder below an earlier sibling has a matching name. -/
theorem GetFolderByName_recursive_first_in_preorder (dir : IMAPFolders) (sName : String) :
    dir.GetFolderByName sName true
      = dir.preorder.find? (fun f => Equals f.GetFolderName sName false) ∧
    (∀ (before after : List IMAPFolder) (child : IMAPFolder),
      dir.vecObjects = before ++ child :: after →
      Equals child.GetFolderName sName false = true →
      (∀ f ∈ preorder.list before, Equals f.GetFolderName sName false = false) →
      dir.GetFolderByName sName true = some child) := by
  have hfind := GetFolderByName_recursive_eq_find sName dir
  refine ⟨hfind, ?_⟩
  intro before after child hsplit hchild hbefore
  rw [hfind]
  cases dir with
  | mk a p vec =>
    simp only [IMAPFolders.vecObjects] at hsplit
    subst hsplit
    cases child with
    | mk d sub =>
      have hnone : (preorder.list before).find? (IMAPFolder.hasName sName) = none := by
        rw [List.find?_eq_none]
        intro f hf
        simp [IMAPFolder.hasName, hbefore f hf]
      simp only [IMAPFolders.preorder, preorder_list_append, List.find?_append, hnone,
        preorder.list, List.find?_cons]
      simp [IMAPFolder.hasName, hchild]

/-- C3, witness: among `A` (holding `X`, id 2) and `X` (id 3) the recursive
lookup of `X` is the first match of the pre-order listing, the folder with id
2; and the direct child `X` (id 3) is the result in a directory whose earlier
sibling `B` has no folder named `X` below it. -/
theorem GetFolderByName_recursive_first_in_preorder_witness :
    Example.shadowed.preorder.map IMAPFolder.GetID = [1, 2, 3] ∧
    (Example.shadowed.GetFolderByName "X" true).map IMAPFolder.GetID = some 2 ∧
    Example.shadowed.GetFolderByName "X" true
      = Example.shadowed.preorder.find? (fun f => Equals f.GetFolderName "X" false) ∧
    (IMAPFolders.mk 1 (-1) [Example.leaf 1 1 (-1) "B", Example.leaf 3 1 (-1) "X"]).GetFolderByName
      "x" true = some (Example.leaf 3 1 (-1) "X") :=
  ⟨by decide, by decide,
    (GetFolderByName_recursive_first_in_preorder Example.shadowed "X").1,
    (GetFolderByName_recursive_first_in_preorder
      (IMAPFolders.mk 1 (-1) [Example.leaf 1 1 (-1) "B", Example.leaf 3 1 (-1) "X"]) "x").2
      [Example.leaf 1 1 (-1) "B"] [] (Example.leaf 3 1 (-1) "X") rfl (by decide) (by decide)⟩

/-! ### Path creation -/

theorem Equals_refl (a : String) : Equals a a false = true := by
  simp [Equals]

theorem GetFolderByName_flat (sName : String) (dir : IMAPFolders) :
    dir.GetFolderByName sName false = dir.vecObjects.find? (IMAPFolder.hasName sName) := by
  cases dir with
  | mk a p vec =>
    simp only [IMAPFolders.GetFolderByName, IMAPFolders.vecObjects]
    exact scan_flat_eq_find sName vec

theorem storeSub_find (sName : String) (sub : IMAPFolders) (vec : List IMAPFolder)
    (d : FolderData) (s0 : IMAPFolders)
    (h : vec.find? (IMAPFolder.hasName sName) = some (.mk d s0)) :
    (CreatePath.storeSub sName sub vec).find? (IMAPFolder.hasName sName) = some (.mk d sub) := by
  induction vec with
  | nil => simp at h
  | cons x xs ih =>
    cases x with
    | mk d1 s1 =>
      by_cases hE : Equals d1.name sName false = true
      · have hx : IMAPFolder.hasName sName (.mk d1 s1) = true := hE
        simp only [List.find?_cons, hx, Option.some.injEq, IMAPFolder.mk.injEq] at h
        obtain ⟨hd, _⟩ := h
        subst hd
        have hy : IMAPFolder.hasName sName (.mk d1 sub) = true := hE
        simp [CreatePath.storeSub, hE, List.find?_cons, hy]
      · have hx : IMAPFolder.hasName sName (.mk d1 s1) = false := by
          simpa [IMAPFolder.hasName, IMAPFolder.GetFolderName, IMAPFolder.data] using hE
        simp only [List.find?_cons, hx] at h
        simp only [CreatePath.storeSub, hE, Bool.false_eq_true, if_false, List.find?_cons, hx]
        exact ih h

theorem storeSub_storeSub (sName : String) (sub sub' : IMAPFolders) (vec : List IMAPFolder) :
    CreatePath.storeSub sName sub (CreatePath.storeSub sName sub' vec)
      = CreatePath.storeSub sName sub vec := by
  induction vec with
  | nil => rfl
  | cons x xs ih =>
    cases x with
    | mk d1 s1 =>
      by_cases hE : Equals d1.name sName false = true
      · simp [CreatePath.storeSub, hE]
      · simp [CreatePath.storeSub, hE, ih]

theorem storeSub_append_last (sName : String) (sub : IMAPFolders) (vec : List IMAPFolder)
    (d : FolderData) (s0 : IMAPFolders)
    (hnone : vec.find? (IMAPFolder.hasName sName) = none)
    (hd : Equals d.name sName false = true) :
    CreatePath.storeSub sName sub (vec ++ [.mk d s0]) = vec ++ [.mk d sub] := by
  induction vec with
  | nil => simp [CreatePath.storeSub, hd]
  | cons x xs ih =>
    cases x with
    | mk d1 s1 =>
      by_cases hE : Equals d1.name sName false = true
      · have hx : IMAPFolder.hasName sName (.mk d1 s1) = true := hE
        simp [List.find?_cons, hx] at hnone
      · have hx : IMAPFolder.hasName sName (.mk d1 s1) = false := by
          simpa [IMAPFolder.hasName, IMAPFolder.GetFolderName, IMAPFolder.data] using hE
        simp only [List.find?_cons, hx] at hnone
        simp [CreatePath.storeSub, hE, ih hnone]

theorem find_append_last (sName : String) (vec : List IMAPFolder) (x : IMAPFolder)
    (hnone : vec.find? (IMAPFolder.hasName sName) = none)
    (hx : IMAPFolder.hasName sName x = true) :
    (vec ++ [x]).find? (IMAPFolder.hasName sName) = some x := by
  simp [List.find?_append, hnone, List.find?_cons, hx]

theorem stamp_name (d : FolderData) (res : Option Int) :
    (PersistentIMAPFolder.stamp d res).name = d.name := by
  cases res <;> rfl

theorem stamp_account (d : FolderData) (res : Option Int) :
    (PersistentIMAPFolder.stamp d res).account_id = d.account_id := by
  cases res <;> rfl

/-- The step of the loop when the segment is found. -/
theorem loop_found {σ : Type} (gw : PersistentIMAPFolder σ) (account : Int) (auto : Bool)
    (s : String) (rest : List String) (cont : IMAPFolders) (pf : Option IMAPFolder) (db : σ)
    (pc : IMAPFolder) (h : cont.GetFolderByName s false = some pc) :
    CreatePath.loop gw account auto (s :: rest) cont pf db =
      ⟨.mk cont.GetAccountID cont.GetParentID
          (CreatePath.storeSub s
            (CreatePath.loop gw account auto rest pc.GetSubFolders (some pc) db).container
            cont.vecObjects),
        (CreatePath.loop gw account auto rest pc.GetSubFolders (some pc) db).db,
        (CreatePath.loop gw account auto rest pc.GetSubFolders (some pc) db).writes⟩ := by
  simp only [CreatePath.loop, h]

/-- The node `CreatePath` builds for the segment `s` under `pParentFolder`. -/
theorem loop_missing {σ : Type} (gw : PersistentIMAPFolder σ) (account : Int) (auto : Bool)
    (s : String) (rest : List String) (cont : IMAPFolders) (pf : Option IMAPFolder) (db : σ)
    (h : cont.GetFolderByName s false = none) :
    CreatePath.loop gw account auto (s :: rest) cont pf db =
      ⟨cont.AddItem (.mk (CreatePath.stamped gw account auto s pf db)
          (CreatePath.loop gw account auto rest
            (IMAPFolder.newSubFolders (CreatePath.stamped gw account auto s pf db))
            (some (.mk (CreatePath.stamped gw account auto s pf db)
              (IMAPFolder.newSubFolders (CreatePath.stamped gw account auto s pf db))))
            (gw.SaveObject db (CreatePath.newFolder account auto s pf)).1).container),
        (CreatePath.loop gw account auto rest
            (IMAPFolder.newSubFolders (CreatePath.stamped gw account auto s pf db))
            (some (.mk (CreatePath.stamped gw account auto s pf db)
              (IMAPFolder.newSubFolders (CreatePath.stamped gw account auto s pf db))))
            (gw.SaveObject db (CreatePath.newFolder account auto s pf)).1).db,
        { saved := CreatePath.newFolder account auto s pf,
          outcome := (gw.SaveObject db (CreatePath.newFolder account auto s pf)).2,
          container_account_id := cont.GetAccountID,
          container_parent_id := cont.GetParentID } ::
        (CreatePath.loop gw account auto rest
            (IMAPFolder.newSubFolders (CreatePath.stamped gw account auto s pf db))
            (some (.mk (CreatePath.stamped gw account auto s pf db)
              (IMAPFolder.newSubFolders (CreatePath.stamped gw account auto s pf db))))
            (gw.SaveObject db (CreatePath.newFolder account auto s pf)).1).writes⟩ := by
  simp only [CreatePath.loop, h, CreatePath.stamped, CreatePath.newFolder]


theorem newFolder_name (account : Int) (auto : Bool) (s : String) (pf : Option IMAPFolder) :
    (CreatePath.newFolder account auto s pf).name = s := rfl

theorem stamped_name {σ : Type} (gw : PersistentIMAPFolder σ) (account : Int) (auto : Bool)
    (s : String) (pf : Option IMAPFolder) (db : σ) :
    (CreatePath.stamped gw account auto s pf db).name = s := by
  simp [CreatePath.stamped, stamp_name, newFolder_name]

/-- After one run of the loop every later run over the same path finds every
segment and changes nothing. -/
theorem loop_idempotent {σ : Type} (gw : PersistentIMAPFolder σ) (account : Int) (auto : Bool) :
    ∀ (path : List String) (cont : IMAPFolders) (pf pf' : Option IMAPFolder) (db : σ),
      CreatePath.loop gw account auto path
          (CreatePath.loop gw account auto path cont pf db).container pf'
          (CreatePath.loop gw account auto path cont pf db).db
        = ⟨(CreatePath.loop gw account auto path cont pf db).container,
            (CreatePath.loop gw account auto path cont pf db).db, []⟩ := by
  intro path
  induction path with
  | nil => intro cont pf pf' db; rfl
  | cons s rest ih =>
    intro cont pf pf' db
    cases hfind : cont.GetFolderByName s false with
    | some pc =>
      cases pc with
      | mk d sub0 =>
        rw [loop_found gw account auto s rest cont pf db _ hfind]
        have hflat := hfind
        rw [GetFolderByName_flat] at hflat
        have hfind2 : (IMAPFolders.mk cont.GetAccountID cont.GetParentID
            (CreatePath.storeSub s
              (CreatePath.loop gw account auto rest sub0 (some (.mk d sub0)) db).container
              cont.vecObjects)).GetFolderByName s false
            = some (.mk d
                (CreatePath.loop gw account auto rest sub0 (some (.mk d sub0)) db).container) := by
          rw [GetFolderByName_flat]
          exact storeSub_find s _ _ d sub0 hflat
        simp only [IMAPFolder.GetSubFolders]
        rw [loop_found gw account auto s rest _ pf' _ _ hfind2]
        simp only [IMAPFolder.GetSubFolders, ih, IMAPFolders.vecObjects, storeSub_storeSub,
          IMAPFolders.GetAccountID, IMAPFolders.GetParentID]
    | none =>
      rw [loop_missing gw account auto s rest cont pf db hfind]
      have hflat := hfind
      rw [GetFolderByName_flat] at hflat
      generalize hst : CreatePath.stamped gw account auto s pf db = st
      generalize hdb : (gw.SaveObject db (CreatePath.newFolder account auto s pf)).1 = db1
      have hname : Equals st.name s false = true := by
        rw [← hst, stamped_name]; exact Equals_refl s
      cases cont with
      | mk a p vec =>
        simp only [IMAPFolders.vecObjects] at hflat
        have hfind2 : (IMAPFolders.AddItem (.mk a p vec) (.mk st
            (CreatePath.loop gw account auto rest (IMAPFolder.newSubFolders st)
              (some (.mk st (IMAPFolder.newSubFolders st))) db1).container)).GetFolderByName s false
            = some (.mk st
              (CreatePath.loop gw account auto rest (IMAPFolder.newSubFolders st)
                (some (.mk st (IMAPFolder.newSubFolders st))) db1).container) := by
          rw [GetFolderByName_flat]
          simp only [IMAPFolders.AddItem, IMAPFolders.vecObjects]
          exact find_append_last s vec _ hflat hname
        rw [loop_found gw account auto s rest _ pf' _ _ hfind2]
        simp only [IMAPFolder.GetSubFolders, ih, IMAPFolders.AddItem, IMAPFolders.vecObjects,
          IMAPFolders.GetAccountID, IMAPFolders.GetParentID]
        rw [storeSub_append_last s _ vec st _ hflat hname]

/-- C6.  `CreatePath` is idempotent: for every gateway (whether its writes
succeed or not), container and segment sequence, a second `CreatePath` with the
same path on the container the first call left makes no call of `SaveObject`,
leaves the gateway as it was and leaves the tree exactly as the first call left
it. -/
theorem CreatePath_idempotent {σ : Type} (gw : PersistentIMAPFolder σ) (self : IMAPFolders)
    (pParentContainer : IMAPFolders) (vecFolderPath : List String) (bAutoSubscribe : Bool)
    (db : σ) :
    (self.CreatePath gw
        (self.CreatePath gw pParentContainer vecFolderPath bAutoSubscribe db).container
        vecFolderPath bAutoSubscribe
        (self.CreatePath gw pParentContainer vecFolderPath bAutoSubscribe db).db).writes = [] ∧
    (self.CreatePath gw
        (self.CreatePath gw pParentContainer vecFolderPath bAutoSubscribe db).container
        vecFolderPath bAutoSubscribe
        (self.CreatePath gw pParentContainer vecFolderPath bAutoSubscribe db).db).container
      = (self.CreatePath gw pParentContainer vecFolderPath bAutoSubscribe db).container ∧
    (self.CreatePath gw
        (self.CreatePath gw pParentContainer vecFolderPath bAutoSubscribe db).container
        vecFolderPath bAutoSubscribe
        (self.CreatePath gw pParentContainer vecFolderPath bAutoSubscribe db).db).db
      = (self.CreatePath gw pParentContainer vecFolderPath bAutoSubscribe db).db := by
  unfold IMAPFolders.CreatePath
  rw [loop_idempotent]
  exact ⟨rfl, rfl, rfl⟩


/-- After the loop ran over `s :: rest`, the container holds a folder named `s`
whose directory is what the loop left for `rest`. -/
theorem loop_first_segment {σ : Type} (gw : PersistentIMAPFolder σ) (account : Int) (auto : Bool)
    (s : String) (rest : List String) (cont : IMAPFolders) (pf : Option IMAPFolder) (db : σ) :
    ∃ (d : FolderData) (sub0 : IMAPFolders) (pf1 : Option IMAPFolder) (db1 : σ),
      Equals d.name s false = true ∧
      (CreatePath.loop gw account auto (s :: rest) cont pf db).container.GetFolderByName s false
        = some (.mk d (CreatePath.loop gw account auto rest sub0 pf1 db1).container) := by
  cases hfind : cont.GetFolderByName s false with
  | some pc =>
    cases pc with
    | mk d sub0 =>
      rw [loop_found gw account auto s rest cont pf db _ hfind]
      have hflat := hfind
      rw [GetFolderByName_flat] at hflat
      have hname : Equals d.name s false = true := by
        have := List.find?_some hflat
        simpa [IMAPFolder.hasName, IMAPFolder.GetFolderName, IMAPFolder.data] using this
      refine ⟨d, sub0, some (.mk d sub0), db, hname, ?_⟩
      rw [GetFolderByName_flat]
      exact storeSub_find s _ _ d sub0 hflat
  | none =>
    rw [loop_missing gw account auto s rest cont pf db hfind]
    have hflat := hfind
    rw [GetFolderByName_flat] at hflat
    have hname : Equals (CreatePath.stamped gw account auto s pf db).name s false = true := by
      rw [stamped_name]; exact Equals_refl s
    refine ⟨CreatePath.stamped gw account auto s pf db,
      IMAPFolder.newSubFolders (CreatePath.stamped gw account auto s pf db),
      some (.mk (CreatePath.stamped gw account auto s pf db)
        (IMAPFolder.newSubFolders (CreatePath.stamped gw account auto s pf db))),
      (gw.SaveObject db (CreatePath.newFolder account auto s pf)).1, hname, ?_⟩
    rw [GetFolderByName_flat]
    cases cont with
    | mk a p vec =>
      simp only [IMAPFolders.vecObjects] at hflat
      simp only [IMAPFolders.AddItem, IMAPFolders.vecObjects]
      exact find_append_last s vec _ hflat hname

/-- Walking the first `k` segments of a created path from the folder found for
the first one. -/
theorem loop_resolves {σ : Type} (gw : PersistentIMAPFolder σ) (account : Int) (auto : Bool)
    (self : IMAPFolders) :
    ∀ (path : List String) (cont : IMAPFolders) (pf : Option IMAPFolder) (db : σ) (k : Nat),
      k < path.length →
      ∃ s rest first f t, path = s :: rest ∧
        (CreatePath.loop gw account auto path cont pf db).container.GetFolderByName s false
          = some first ∧
        GetFolderByFullPath.loop self (some first) (rest.take k) = some f ∧
        path[k]? = some t ∧ Equals f.GetFolderName t false = true := by
  intro path
  induction path with
  | nil => intro cont pf db k hk; simp at hk
  | cons s rest ih =>
    intro cont pf db k hk
    obtain ⟨d, sub0, pf1, db1, hname, hfirst⟩ :=
      loop_first_segment gw account auto s rest cont pf db
    cases k with
    | zero =>
      refine ⟨s, rest, _, .mk d (CreatePath.loop gw account auto rest sub0 pf1 db1).container,
        s, rfl, hfirst, ?_, by simp, ?_⟩
      · simp [GetFolderByFullPath.loop]
      · simpa [IMAPFolder.GetFolderName, IMAPFolder.data] using hname
    | succ k' =>
      have hk' : k' < rest.length := by simpa using hk
      obtain ⟨s2, rest2, first2, f, t, hrest, hfirst2, hwalk, hget, hmatch⟩ :=
        ih sub0 pf1 db1 k' hk'
      refine ⟨s, rest, _, f, t, rfl, hfirst, ?_, ?_, hmatch⟩
      · subst hrest
        simp only [List.take_succ_cons, GetFolderByFullPath.loop, IMAPFolder.GetSubFolders,
          GetFolderByName.bRecursiveDefault, hfirst2]
        exact hwalk
      · simpa using hget

/-- C7.  `CreatePath` followed by path lookup round-trips.  For every gateway
(whether its writes succeed or not), container and segment sequence, and every
`k` with `0 < k ≤ length`, looking up the first `k` segments on the container
`CreatePath` left returns a folder whose name equals segment `k - 1` without
regard to case: the whole path (`k = length`) and every non-empty proper start
of it resolve. -/
theorem CreatePath_then_GetFolderByFullPath {σ : Type} (gw : PersistentIMAPFolder σ)
    (self : IMAPFolders) (pParentContainer : IMAPFolders) (vecFolderPath : List String)
    (bAutoSubscribe : Bool) (db : σ) (k : Nat) (hpos : 0 < k)
    (hlen : k ≤ vecFolderPath.length) :
    ∃ f t,
      (self.CreatePath gw pParentContainer vecFolderPath bAutoSubscribe
          db).container.GetFolderByFullPath (vecFolderPath.take k) = some f ∧
      vecFolderPath[k - 1]? = some t ∧
      Equals f.GetFolderName t false = true := by
  obtain ⟨k', rfl⟩ : ∃ k', k = k' + 1 := ⟨k - 1, by omega⟩
  obtain ⟨s, rest, first, f, t, hpath, hfirst, hwalk, hget, hmatch⟩ :=
    loop_resolves gw self.GetAccountID bAutoSubscribe
      (self.CreatePath gw pParentContainer vecFolderPath bAutoSubscribe db).container
      vecFolderPath pParentContainer none db k' (by omega)
  refine ⟨f, t, ?_, by simpa using hget, hmatch⟩
  subst hpath
  unfold IMAPFolders.CreatePath
  simp only [IMAPFolders.GetFolderByFullPath, List.take_succ_cons, GetFolderByFullPath.loop,
    GetFolderByName.bRecursiveDefault, hfirst]
  exact hwalk


/-- On a directory without children the loop hands every segment to
`SaveObject`. -/
theorem loop_fresh_writes {σ : Type} (gw : PersistentIMAPFolder σ) (account : Int) (auto : Bool) :
    ∀ (path : List String) (a p : Int) (pf : Option IMAPFolder) (db : σ),
      (CreatePath.loop gw account auto path (IMAPFolders.ctor a p) pf db).writes.length
        = path.length := by
  intro path
  induction path with
  | nil => intro a p pf db; rfl
  | cons s rest ih =>
    intro a p pf db
    have hnone : (IMAPFolders.ctor a p).GetFolderByName s false = none := rfl
    rw [loop_missing gw account auto s rest _ pf db hnone]
    simp only [List.length_cons, IMAPFolder.newSubFolders, ih]

/-- C4, counterexample.  With a gateway whose second write fails, `CreatePath`
of `A / B / C` on an empty top-level directory still appends the node built for
`B` (it keeps the id `0`) and goes on to create `C` below it: three calls of
`SaveObject`, answered `1`, failure, `3`, and one chain `A / B / C` in the
tree. -/
theorem CreatePath_ignores_failed_save :
    ((IMAPFolders.ctor 1 (-1)).CreatePath Example.failsSecond (IMAPFolders.ctor 1 (-1))
      ["A", "B", "C"] true 0).writes.map SaveRecord.outcome = [some 1, none, some 3] ∧
    ((IMAPFolders.ctor 1 (-1)).CreatePath Example.failsSecond (IMAPFolders.ctor 1 (-1))
      ["A", "B", "C"] true 0).container.preorder.map
        (fun f => (f.GetFolderName, f.GetID)) = [("A", 1), ("B", 0), ("C", 3)] := by
  decide

/-- C4, amended.  `CreatePath` does not consult the outcome of `SaveObject`.
At any iteration of its loop, when the segment `s` is missing from the current
container and the write of the node built for it fails, that node is appended
to the container's children all the same, unchanged (so without a durable id)
and after the children that were there; every later segment is still handed to
`SaveObject`, and the folder `s` resolves in the container afterwards.  Whatever
the gateway answers, every segment of a path, so also each one persisted before
a failure, is in the tree after the call. -/
theorem CreatePath_appends_after_failed_save {σ : Type} (gw : PersistentIMAPFolder σ)
    (account_id_ : Int) (bAutoSubscribe : Bool) (s : String) (rest : List String)
    (pParentContainer : IMAPFolders) (pParentFolder : Option IMAPFolder) (db : σ)
    (hmissing : pParentContainer.GetFolderByName s false = none)
    (hfail : (gw.SaveObject db
      (CreatePath.newFolder account_id_ bAutoSubscribe s pParentFolder)).2 = none) :
    (∃ sub,
      (CreatePath.loop gw account_id_ bAutoSubscribe (s :: rest) pParentContainer
          pParentFolder db).container.vecObjects
        = pParentContainer.vecObjects ++
            [.mk (CreatePath.newFolder account_id_ bAutoSubscribe s pParentFolder) sub]) ∧
    (CreatePath.loop gw account_id_ bAutoSubscribe (s :: rest) pParentContainer
        pParentFolder db).writes.length = 1 + rest.length ∧
    ((CreatePath.loop gw account_id_ bAutoSubscribe (s :: rest) pParentContainer
        pParentFolder db).container.GetFolderByName s false).isSome = true ∧
    (∀ (self start : IMAPFolders) (path : List String) (db0 : σ) (k : Nat),
      k < path.length →
      ((self.CreatePath gw start path bAutoSubscribe db0).container.GetFolderByFullPath
        (path.take (k + 1))).isSome = true) := by
  have hfirst := loop_first_segment gw account_id_ bAutoSubscribe s rest pParentContainer
    pParentFolder db
  rw [loop_missing gw account_id_ bAutoSubscribe s rest pParentContainer pParentFolder db
    hmissing] at hfirst ⊢
  have hst : CreatePath.stamped gw account_id_ bAutoSubscribe s pParentFolder db
      = CreatePath.newFolder account_id_ bAutoSubscribe s pParentFolder := by
    simp [CreatePath.stamped, hfail, PersistentIMAPFolder.stamp]
  refine ⟨?_, ?_, ?_, ?_⟩
  · cases pParentContainer with
    | mk a p vec =>
      simp only [IMAPFolders.AddItem, IMAPFolders.vecObjects, hst]
      exact ⟨_, rfl⟩
  · simp only [List.length_cons, IMAPFolder.newSubFolders, loop_fresh_writes]
    omega
  · obtain ⟨d, sub0, pf1, db1, _, h⟩ := hfirst
    rw [h]
    rfl
  · intro self start path db0 k hk
    obtain ⟨s1, rest1, first, f, t, hpath, hfound, hwalk, _, _⟩ :=
      loop_resolves gw self.GetAccountID bAutoSubscribe
        (self.CreatePath gw start path bAutoSubscribe db0).container path start none db0 k hk
    subst hpath
    unfold IMAPFolders.CreatePath
    simp only [IMAPFolders.GetFolderByFullPath, List.take_succ_cons, GetFolderByFullPath.loop,
      GetFolderByName.bRecursiveDefault, hfound]
    unfold IMAPFolders.CreatePath at hwalk
    rw [hwalk]
    rfl

/-- C4, witness: the gateway whose writes all fail, on an empty top-level
directory and the path `A / B`. -/
theorem CreatePath_appends_after_failed_save_witness :
    (CreatePath.loop Example.failing 1 true ["A", "B"] (IMAPFolders.ctor 1 (-1)) none
      0).writes.length = 1 + ["B"].length ∧
    (CreatePath.loop Example.failing 1 true ["A", "B"] (IMAPFolders.ctor 1 (-1)) none
      0).container.preorder.map (fun f => (f.GetFolderName, f.GetID)) = [("A", 0), ("B", 0)] :=
  ⟨(CreatePath_appends_after_failed_save Example.failing 1 true "A" ["B"]
      (IMAPFolders.ctor 1 (-1)) none 0 rfl rfl).2.1, by decide⟩

/-- A folder found in a directory whose child directories are bound. -/
theorem subBound_find (account : Int) (sName : String) (vec : List IMAPFolder)
    (d : FolderData) (sub : IMAPFolders)
    (hb : subBound.list account vec = true)
    (hfind : vec.find? (IMAPFolder.hasName sName) = some (.mk d sub)) :
    sub.GetAccountID = account ∧ sub.GetParentID = d.id ∧ sub.subBound account = true := by
  induction vec with
  | nil => simp at hfind
  | cons x xs ih =>
    cases x with
    | mk d1 s1 =>
      simp only [subBound.list, Bool.and_eq_true, decide_eq_true_eq] at hb
      cases hx : IMAPFolder.hasName sName (.mk d1 s1) with
      | true =>
        simp only [List.find?_cons, hx, Option.some.injEq, IMAPFolder.mk.injEq] at hfind
        obtain ⟨h1, h2⟩ := hfind
        subst h1; subst h2
        exact ⟨hb.1.1.1, hb.1.1.2, hb.1.2⟩
      | false =>
        simp only [List.find?_cons, hx] at hfind
        exact ih hb.2 hfind

theorem loop_writes_identity {σ : Type} (gw : PersistentIMAPFolder σ) (account : Int)
    (auto : Bool) :
    ∀ (path : List String) (cont : IMAPFolders) (pf : Option IMAPFolder) (db : σ),
      cont.GetAccountID = account → cont.GetParentID = CreatePath.parentIdOf pf →
      cont.subBound account = true →
      ∀ w ∈ (CreatePath.loop gw account auto path cont pf db).writes,
        w.saved.account_id = w.container_account_id ∧
        w.saved.parent_id = w.container_parent_id := by
  intro path
  induction path with
  | nil => intro cont pf db _ _ _ w hw; simp [CreatePath.loop] at hw
  | cons s rest ih =>
    intro cont pf db hacc hpar hb w hw
    cases hfind : cont.GetFolderByName s false with
    | some pc =>
      cases pc with
      | mk d sub0 =>
        rw [loop_found gw account auto s rest cont pf db _ hfind] at hw
        have hflat := hfind
        rw [GetFolderByName_flat] at hflat
        cases cont with
        | mk a p vec =>
          simp only [IMAPFolders.vecObjects] at hflat
          simp only [IMAPFolders.subBound] at hb
          obtain ⟨h1, h2, h3⟩ := subBound_find account s vec d sub0 hb hflat
          exact ih sub0 (some (.mk d sub0)) db h1 h2 h3 w hw
    | none =>
      rw [loop_missing gw account auto s rest cont pf db hfind] at hw
      rcases List.mem_cons.mp hw with h | h
      · subst h
        simp only [CreatePath.newFolder, IMAPFolder.ctor, hacc, hpar, CreatePath.parentIdOf]
        exact ⟨trivial, trivial⟩
      · refine ih _ _ _ ?_ ?_ ?_ w h
        · simp [IMAPFolder.newSubFolders, IMAPFolders.ctor, IMAPFolders.GetAccountID,
            CreatePath.stamped, stamp_account, CreatePath.newFolder, IMAPFolder.ctor]
        · simp [IMAPFolder.newSubFolders, IMAPFolders.ctor, IMAPFolders.GetParentID,
            CreatePath.parentIdOf, IMAPFolder.GetID, IMAPFolder.data]
        · rfl


/-- Every node handed to `SaveObject` carries the account id of the directory
`CreatePath` is invoked on. -/
theorem loop_writes_account {σ : Type} (gw : PersistentIMAPFolder σ) (account : Int)
    (auto : Bool) :
    ∀ (path : List String) (cont : IMAPFolders) (pf : Option IMAPFolder) (db : σ),
      ∀ w ∈ (CreatePath.loop gw account auto path cont pf db).writes,
        w.saved.account_id = account := by
  intro path
  induction path with
  | nil => intro cont pf db w hw; simp [CreatePath.loop] at hw
  | cons s rest ih =>
    intro cont pf db w hw
    cases hfind : cont.GetFolderByName s false with
    | some pc =>
      rw [loop_found gw account auto s rest cont pf db _ hfind] at hw
      exact ih _ _ _ w hw
    | none =>
      rw [loop_missing gw account auto s rest cont pf db hfind] at hw
      rcases List.mem_cons.mp hw with h | h
      · subst h; rfl
      · exact ih _ _ _ w h


/-- C6, witness: `CreatePath` of `A / B / C` twice on an empty top-level
directory gives exactly one chain `A / B / C`, and the second call writes
nothing. -/
theorem CreatePath_idempotent_witness :
    ((IMAPFolders.ctor 1 (-1)).CreatePath Example.counting
        ((IMAPFolders.ctor 1 (-1)).CreatePath Example.counting (IMAPFolders.ctor 1 (-1))
          ["A", "B", "C"] true 0).container
        ["A", "B", "C"] true
        ((IMAPFolders.ctor 1 (-1)).CreatePath Example.counting (IMAPFolders.ctor 1 (-1))
          ["A", "B", "C"] true 0).db).writes = [] ∧
    ((IMAPFolders.ctor 1 (-1)).CreatePath Example.counting
        ((IMAPFolders.ctor 1 (-1)).CreatePath Example.counting (IMAPFolders.ctor 1 (-1))
          ["A", "B", "C"] true 0).container
        ["A", "B", "C"] true
        ((IMAPFolders.ctor 1 (-1)).CreatePath Example.counting (IMAPFolders.ctor 1 (-1))
          ["A", "B", "C"] true 0).db).container.preorder.map IMAPFolder.GetFolderName
      = ["A", "B", "C"] :=
  ⟨(CreatePath_idempotent Example.counting (IMAPFolders.ctor 1 (-1)) (IMAPFolders.ctor 1 (-1))
      ["A", "B", "C"] true 0).1, by decide⟩

/-- C7, witness: after `CreatePath` of `a / B / C` on the directory holding `A`,
the whole path resolves. -/
theorem CreatePath_then_GetFolderByFullPath_witness :
    ∃ f t,
      (Example.onlyA.CreatePath Example.counting Example.onlyA ["a", "B", "C"] true
          0).container.GetFolderByFullPath (["a", "B", "C"].take 3) = some f ∧
      ["a", "B", "C"][3 - 1]? = some t ∧
      Equals f.GetFolderName t false = true :=
  CreatePath_then_GetFolderByFullPath Example.counting Example.onlyA Example.onlyA
    ["a", "B", "C"] true 0 3 (by decide) (by decide)

/-- C10, counterexample.  `CreatePath` invoked on a directory of account 1 with
a starting container of account 2 bound to parent 7: the node for `X` is handed
to `SaveObject` with account id 1 and parent id `-1`, and is appended to the
container whose account id is 2 and whose parent id is 7. -/
theorem CreatePath_foreign_container_mismatch :
    ((IMAPFolders.ctor 1 (-1)).CreatePath Example.counting (IMAPFolders.ctor 2 7) ["X"] true
      0).writes.map (fun w => (w.saved.account_id, w.saved.parent_id,
        w.container_account_id, w.container_parent_id)) = [(1, -1, 2, 7)] := by
  decide

/-- The folder the loop has last descended through when it reaches the end of
the path or its first missing segment. -/
theorem lastFound_fresh (path : List String) (a p : Int) (pf : Option IMAPFolder) :
    CreatePath.lastFound path (IMAPFolders.ctor a p) pf = pf := by
  cases path with
  | nil => rfl
  | cons s rest => rfl

/-- The parent ids of the nodes handed to `SaveObject`: the first one has the
id of the folder last descended through, every later one the id its
predecessor has after `SaveObject` returned. -/
theorem loop_writes_parent {σ : Type} (gw : PersistentIMAPFolder σ) (account : Int)
    (auto : Bool) :
    ∀ (path : List String) (cont : IMAPFolders) (pf : Option IMAPFolder) (db : σ),
      (∀ w, (CreatePath.loop gw account auto path cont pf db).writes.head? = some w →
        w.saved.parent_id = CreatePath.parentIdOf (CreatePath.lastFound path cont pf)) ∧
      (CreatePath.loop gw account auto path cont pf db).writes.Chain'
        (fun w w' => w'.saved.parent_id
          = (PersistentIMAPFolder.stamp w.saved w.outcome).id) := by
  intro path
  induction path with
  | nil =>
    intro cont pf db
    exact ⟨fun w hw => by simp [CreatePath.loop] at hw, List.chain'_nil⟩
  | cons s rest ih =>
    intro cont pf db
    cases hfind : cont.GetFolderByName s false with
    | some pc =>
      rw [loop_found gw account auto s rest cont pf db _ hfind]
      simp only [CreatePath.lastFound, hfind]
      exact ih pc.GetSubFolders (some pc) db
    | none =>
      rw [loop_missing gw account auto s rest cont pf db hfind]
      simp only [CreatePath.lastFound, hfind]
      have hrec := ih
        (IMAPFolder.newSubFolders (CreatePath.stamped gw account auto s pf db))
        (some (.mk (CreatePath.stamped gw account auto s pf db)
          (IMAPFolder.newSubFolders (CreatePath.stamped gw account auto s pf db))))
        (gw.SaveObject db (CreatePath.newFolder account auto s pf)).1
      refine ⟨?_, ?_⟩
      · intro w hw
        simp only [List.head?_cons, Option.some.injEq] at hw
        subst hw
        rfl
      · refine List.chain'_cons'.mpr ⟨?_, hrec.2⟩
        intro w' hw'
        have h := hrec.1 w' hw'
        rw [h]
        simp only [IMAPFolder.newSubFolders, lastFound_fresh]
        rfl

/-- C10, amended.  `CreatePath` builds every new node with the account id of the
directory it is invoked on and with the id of the folder it last descended
through as parent id (`-1` before the first descent): the first node handed to
`SaveObject` has the id of the last folder found along the path, `-1` when none
was found, and every later node the id its predecessor carries after
`SaveObject` returned.  So when the starting container is a top-level one
(parent id `-1`) of the same account as that directory, and every child
directory below it is bound to that account and to the id of its owning folder,
each node handed to `SaveObject` carries the account id and the parent id of the
container it is appended to. -/
theorem CreatePath_stamps_container_identity {σ : Type} (gw : PersistentIMAPFolder σ)
    (self : IMAPFolders) (pParentContainer : IMAPFolders) (vecFolderPath : List String)
    (bAutoSubscribe : Bool) (db : σ) :
    (∀ w ∈ (self.CreatePath gw pParentContainer vecFolderPath bAutoSubscribe db).writes,
      w.saved.account_id = self.GetAccountID) ∧
    (∀ w,
      (self.CreatePath gw pParentContainer vecFolderPath bAutoSubscribe db).writes.head?
        = some w →
      w.saved.parent_id
        = CreatePath.parentIdOf (CreatePath.lastFound vecFolderPath pParentContainer none)) ∧
    (self.CreatePath gw pParentContainer vecFolderPath bAutoSubscribe db).writes.Chain'
      (fun w w' => w'.saved.parent_id = (PersistentIMAPFolder.stamp w.saved w.outcome).id) ∧
    (pParentContainer.GetAccountID = self.GetAccountID →
      pParentContainer.GetParentID = -1 →
      pParentContainer.subBound self.GetAccountID = true →
      ∀ w ∈ (self.CreatePath gw pParentContainer vecFolderPath bAutoSubscribe db).writes,
        w.saved.account_id = w.container_account_id ∧
        w.saved.parent_id = w.container_parent_id) := by
  have hparent := loop_writes_parent gw self.GetAccountID bAutoSubscribe vecFolderPath
    pParentContainer none db
  refine ⟨?_, hparent.1, hparent.2, ?_⟩
  · exact loop_writes_account gw self.GetAccountID bAutoSubscribe vecFolderPath
      pParentContainer none db
  · intro haccount htop hbound
    exact loop_writes_identity gw self.GetAccountID bAutoSubscribe vecFolderPath
      pParentContainer none db haccount htop hbound

/-- C10, witness.  In a foreign container (account 2, parent 7) the node for `X`
is built with the account id 1 of the directory `CreatePath` is invoked on and
the parent id `-1`, no folder having been descended through.  In the top-level
directory of account 1 holding `A`, the node for `C` of the path `A / B / C` is
created below the new folder `B` (id 11) and carries the identity of the
container it is appended to. -/
theorem CreatePath_stamps_container_identity_witness :
    ((IMAPFolders.ctor 1 (-1)).CreatePath Example.counting (IMAPFolders.ctor 2 7) ["X"] true
      0).writes.map (fun w => (w.saved.account_id, w.saved.parent_id)) = [(1, -1)] ∧
    (Example.onlyA.CreatePath Example.counting Example.onlyA ["A", "B", "C"] true
      10).writes.map (fun w => (w.saved.parent_id, w.outcome)) = [(1, some 11), (11, some 12)] ∧
    Example.recordC ∈
      (Example.onlyA.CreatePath Example.counting Example.onlyA ["A", "B", "C"] true 10).writes ∧
    Example.recordC.saved.account_id = Example.recordC.container_account_id ∧
    Example.recordC.saved.parent_id = Example.recordC.container_parent_id :=
  ⟨by decide, by decide, by decide,
    (CreatePath_stamps_container_identity Example.counting Example.onlyA Example.onlyA
      ["A", "B", "C"] true 10).2.2.2 rfl rfl (by decide) Example.recordC (by decide)⟩

/-! ### Reload from the store -/


theorem FolderMap.find_addSubItem (m : FolderMap) (p c k : Int) :
    (m.addSubItem p c).find k =
      if k = p then (m.find k).map (fun o => { o with subItems := o.subItems ++ [c] })
      else m.find k := by
  induction m with
  | nil => simp [FolderMap.addSubItem, FolderMap.find]
  | cons e rest ih =>
    obtain ⟨k', v⟩ := e
    by_cases h1 : k' = p
    · subst h1
      by_cases h2 : k' = k
      · subst h2; simp [FolderMap.addSubItem, FolderMap.find]
      · have h3 : ¬ k = k' := fun h => h2 h.symm
        simp [FolderMap.addSubItem, FolderMap.find, h2, h3]
    · by_cases h2 : k' = k
      · subst h2
        simp [FolderMap.addSubItem, FolderMap.find, h1]
      · simp [FolderMap.addSubItem, FolderMap.find, h1, h2, ih]

theorem FolderMap.parentOf_addSubItem (m : FolderMap) (p c : Int) :
    (m.addSubItem p c).parentOf = m.parentOf := by
  funext k
  simp only [FolderMap.parentOf, FolderMap.find_addSubItem]
  split
  · cases m.find k <;> simp
  · rfl

theorem FolderMap.find_isSome_addSubItem (m : FolderMap) (p c k : Int) :
    ((m.addSubItem p c).find k).isSome = (m.find k).isSome := by
  rw [FolderMap.find_addSubItem]
  split
  · cases m.find k <;> simp
  · rfl

theorem sameLinks_visit (st : Refresh.State) (key : Int) :
    Refresh.sameLinks (Refresh.visit st key).folderMap st.folderMap := by
  unfold Refresh.visit
  cases h : st.folderMap.find key with
  | none => exact ⟨rfl, fun _ => rfl⟩
  | some folder =>
    simp only
    split
    · exact ⟨rfl, fun _ => rfl⟩
    · cases h2 : st.folderMap.find folder.data.parent_id with
      | none => exact ⟨rfl, fun _ => rfl⟩
      | some par =>
        exact ⟨FolderMap.parentOf_addSubItem _ _ _, FolderMap.find_isSome_addSubItem _ _ _⟩


theorem sameLinks_refl (m : FolderMap) : Refresh.sameLinks m m := ⟨rfl, fun _ => rfl⟩

theorem sameLinks_trans {m1 m2 m3 : FolderMap} (h1 : Refresh.sameLinks m1 m2)
    (h2 : Refresh.sameLinks m2 m3) : Refresh.sameLinks m1 m3 :=
  ⟨h1.1.trans h2.1, fun k => (h1.2 k).trans (h2.2 k)⟩

theorem isTop_congr {m1 m2 : FolderMap} (h : Refresh.sameLinks m1 m2) :
    Refresh.isTop m1 = Refresh.isTop m2 := by
  funext k; simp [Refresh.isTop, h.1]

theorem isOrphan_congr {m1 m2 : FolderMap} (h : Refresh.sameLinks m1 m2) :
    Refresh.isOrphan m1 = Refresh.isOrphan m2 := by
  funext k; simp only [Refresh.isOrphan, h.1, h.2]

theorem isChildOf_congr {m1 m2 : FolderMap} (h : Refresh.sameLinks m1 m2) :
    Refresh.isChildOf m1 = Refresh.isChildOf m2 := by
  funext p k; simp only [Refresh.isChildOf, h.1, h.2]

theorem reportFor_congr {m1 m2 : FolderMap} (h : Refresh.sameLinks m1 m2) :
    Refresh.reportFor m1 = Refresh.reportFor m2 := by
  funext k; simp only [Refresh.reportFor, h.1]

theorem visit_vecObjects (st : Refresh.State) (key : Int) :
    (Refresh.visit st key).vecObjects
      = st.vecObjects ++ (if Refresh.isTop st.folderMap key then [key] else []) := by
  unfold Refresh.visit Refresh.isTop FolderMap.parentOf
  cases h : st.folderMap.find key with
  | none => simp
  | some folder =>
    simp only [Option.map_some']
    by_cases hp : folder.data.parent_id = -1
    · simp [hp]
    · simp only [hp, if_false, decide_False]
      cases st.folderMap.find folder.data.parent_id <;> simp

theorem visit_errors (st : Refresh.State) (key : Int) :
    (Refresh.visit st key).errors
      = st.errors ++ (if Refresh.isOrphan st.folderMap key
          then [Refresh.reportFor st.folderMap key] else []) := by
  unfold Refresh.visit Refresh.isOrphan Refresh.reportFor FolderMap.parentOf
  cases h : st.folderMap.find key with
  | none => simp
  | some folder =>
    simp only [Option.map_some']
    by_cases hp : folder.data.parent_id = -1
    · simp [hp]
    · simp only [hp, if_false]
      cases st.folderMap.find folder.data.parent_id <;> simp [hp]

theorem visit_subItems (st : Refresh.State) (key p : Int) :
    ((Refresh.visit st key).folderMap.find p).map FolderObject.subItems
      = (st.folderMap.find p).map (fun o =>
          o.subItems ++ (if Refresh.isChildOf st.folderMap p key then [key] else [])) := by
  unfold Refresh.visit Refresh.isChildOf FolderMap.parentOf
  cases h : st.folderMap.find key with
  | none =>
    simp only [Option.map_none']
    cases st.folderMap.find p <;> simp
  | some folder =>
    simp only [Option.map_some']
    by_cases hp : folder.data.parent_id = -1
    · simp only [hp, if_true]
      cases st.folderMap.find p <;> simp
    · simp only [hp, if_false]
      split
      · rename_i par h2
        simp only [FolderMap.find_addSubItem]
        by_cases h3 : p = folder.data.parent_id
        · subst h3
          simp [h2, hp]
        · have h4 : ¬ folder.data.parent_id = p := fun h => h3 h.symm
          simp only [h3, if_false]
          cases st.folderMap.find p <;> simp [h4]
      · rename_i h2
        simp only [h2]
        cases st.folderMap.find p <;> simp

theorem foldl_visit_sameLinks (iteration : List Int) (st : Refresh.State) :
    Refresh.sameLinks (iteration.foldl Refresh.visit st).folderMap st.folderMap := by
  induction iteration generalizing st with
  | nil => exact sameLinks_refl _
  | cons k rest ih =>
    simp only [List.foldl_cons]
    exact sameLinks_trans (ih _) (sameLinks_visit st k)

theorem foldl_visit_vecObjects (iteration : List Int) (st : Refresh.State) :
    (iteration.foldl Refresh.visit st).vecObjects
      = st.vecObjects ++ iteration.filter (Refresh.isTop st.folderMap) := by
  induction iteration generalizing st with
  | nil => simp
  | cons k rest ih =>
    simp only [List.foldl_cons, ih, visit_vecObjects, isTop_congr (sameLinks_visit st k),
      List.filter_cons]
    split <;> simp

theorem foldl_visit_errors (iteration : List Int) (st : Refresh.State) :
    (iteration.foldl Refresh.visit st).errors
      = st.errors ++ (iteration.filter (Refresh.isOrphan st.folderMap)).map
          (Refresh.reportFor st.folderMap) := by
  induction iteration generalizing st with
  | nil => simp
  | cons k rest ih =>
    simp only [List.foldl_cons, ih, visit_errors, isOrphan_congr (sameLinks_visit st k),
      reportFor_congr (sameLinks_visit st k), List.filter_cons]
    split <;> simp

theorem foldl_visit_subItems (iteration : List Int) (st : Refresh.State) (p : Int) :
    ((iteration.foldl Refresh.visit st).folderMap.find p).map FolderObject.subItems
      = (st.folderMap.find p).map (fun o =>
          o.subItems ++ iteration.filter (Refresh.isChildOf st.folderMap p)) := by
  induction iteration generalizing st with
  | nil =>
    simp only [List.foldl_nil, List.filter_nil, List.append_nil]
  | cons k rest ih =>
    simp only [List.foldl_cons, ih, isChildOf_congr (sameLinks_visit st k), List.filter_cons]
    have h := visit_subItems st k p
    cases h1 : (Refresh.visit st k).folderMap.find p with
    | none =>
      rw [h1] at h
      cases h2 : st.folderMap.find p with
      | none => simp
      | some o => rw [h2] at h; simp at h
    | some o1 =>
      rw [h1] at h
      cases h2 : st.folderMap.find p with
      | none => rw [h2] at h; simp at h
      | some o =>
        rw [h2] at h
        simp only [Option.map_some', Option.some.injEq] at h
        simp only [Option.map_some', h]
        split <;> simp

theorem FolderMap.find_data_addSubItem (m : FolderMap) (p c k : Int) :
    ((m.addSubItem p c).find k).map FolderObject.data = (m.find k).map FolderObject.data := by
  rw [FolderMap.find_addSubItem]
  split
  · cases m.find k <;> simp
  · rfl

theorem visit_data (st : Refresh.State) (key k : Int) :
    ((Refresh.visit st key).folderMap.find k).map FolderObject.data
      = (st.folderMap.find k).map FolderObject.data := by
  unfold Refresh.visit
  cases h : st.folderMap.find key with
  | none => rfl
  | some folder =>
    simp only
    split
    · rfl
    · cases h2 : st.folderMap.find folder.data.parent_id with
      | none => rfl
      | some par => exact FolderMap.find_data_addSubItem _ _ _ _

theorem foldl_visit_data (iteration : List Int) (st : Refresh.State) (k : Int) :
    ((iteration.foldl Refresh.visit st).folderMap.find k).map FolderObject.data
      = (st.folderMap.find k).map FolderObject.data := by
  induction iteration generalizing st with
  | nil => rfl
  | cons key rest ih =>
    simp only [List.foldl_cons, ih, visit_data]


/-! ### First pass -/

theorem FolderMap.find_assign (m : FolderMap) (k : Int) (v : FolderObject) (k' : Int) :
    (m.assign k v).find k' = if k = k' then some v else m.find k' := by
  induction m with
  | nil => simp [FolderMap.assign, FolderMap.find]
  | cons e rest ih =>
    obtain ⟨k0, v0⟩ := e
    by_cases h1 : k0 = k
    · subst h1
      by_cases h2 : k0 = k' <;> simp [FolderMap.assign, FolderMap.find, h2]
    · by_cases h2 : k0 = k'
      · subst h2
        have h3 : ¬ k = k0 := fun h => h1 h.symm
        simp [FolderMap.assign, FolderMap.find, h1, h3]
      · simp [FolderMap.assign, FolderMap.find, h1, h2, ih]

/-- Every object of the first pass carries the account of the directory, the key
it is stored under as its id, and no sub folders yet. -/
theorem firstPass_entry (account : Int) (rows : List Row) (k : Int) (o : FolderObject)
    (h : (Refresh.firstPass account rows).find k = some o) :
    o.data.account_id = account ∧ o.data.id = k ∧ o.subItems = [] := by
  unfold Refresh.firstPass at h
  have key : ∀ (rs : List Row) (init : FolderMap),
      (∀ k o, init.find k = some o →
        o.data.account_id = account ∧ o.data.id = k ∧ o.subItems = []) →
      ∀ k o, (rs.foldl (fun m r => FolderMap.assign m r.folderid
          (Refresh.makeFolder account r)) init).find k = some o →
        o.data.account_id = account ∧ o.data.id = k ∧ o.subItems = [] := by
    intro rs
    induction rs with
    | nil => intro init hinit k o hk; exact hinit k o hk
    | cons r rest ih =>
      intro init hinit k o hk
      simp only [List.foldl_cons] at hk
      refine ih _ ?_ k o hk
      intro k1 o1 h1
      rw [FolderMap.find_assign] at h1
      by_cases hk1 : r.folderid = k1
      · simp only [hk1, if_true, Option.some.injEq] at h1
        subst h1
        simp [Refresh.makeFolder, IMAPFolder.ctor, hk1]
      · simp only [hk1, if_false] at h1
        exact hinit k1 o1 h1
  exact key rows [] (fun k o hk => by simp [FolderMap.find] at hk) k o h

theorem FolderMap.assign_of_not_mem (m : FolderMap) (k : Int) (v : FolderObject)
    (h : k ∉ m.keys) : m.assign k v = m ++ [(k, v)] := by
  induction m with
  | nil => rfl
  | cons e rest ih =>
    obtain ⟨k0, v0⟩ := e
    simp only [FolderMap.keys, List.map_cons, List.mem_cons, not_or] at h
    have h1 : ¬ k0 = k := fun h' => h.1 h'.symm
    simp only [FolderMap.assign, h1, if_false, List.cons_append]
    rw [ih h.2]

/-- The map entry made from one row. -/
theorem firstPass_of_nodup (account : Int) (rows : List Row)
    (hids : (rows.map Row.folderid).Nodup) :
    Refresh.firstPass account rows
      = rows.map (fun r => (r.folderid, Refresh.makeFolder account r)) := by
  unfold Refresh.firstPass
  have key : ∀ (rs : List Row) (init : FolderMap),
      (init.keys ++ rs.map Row.folderid).Nodup →
      rs.foldl (fun m r => FolderMap.assign m r.folderid (Refresh.makeFolder account r)) init
        = init ++ rs.map (fun r => (r.folderid, Refresh.makeFolder account r)) := by
    intro rs
    induction rs with
    | nil => intro init _; simp
    | cons r rest ih =>
      intro init hnd
      simp only [List.foldl_cons, List.map_cons]
      have hnot : r.folderid ∉ init.keys := by
        intro hmem
        have := List.nodup_append.mp hnd
        exact this.2.2 hmem (by simp)
      rw [FolderMap.assign_of_not_mem _ _ _ hnot, ih]
      · simp
      · simp only [FolderMap.keys, List.map_append, List.map_cons, List.map_nil,
          List.append_assoc, List.singleton_append]
        simpa [FolderMap.keys] using hnd
  simpa using key rows [] (by simpa [FolderMap.keys] using hids)

theorem firstPass_keys (account : Int) (rows : List Row)
    (hids : (rows.map Row.folderid).Nodup) :
    (Refresh.firstPass account rows).keys = rows.map Row.folderid := by
  rw [firstPass_of_nodup account rows hids]
  simp [FolderMap.keys, Function.comp_def]

theorem FolderMap.find_isSome_iff (m : FolderMap) (k : Int) :
    (m.find k).isSome = true ↔ k ∈ m.keys := by
  induction m with
  | nil => simp [FolderMap.find, FolderMap.keys]
  | cons e rest ih =>
    obtain ⟨k0, v0⟩ := e
    by_cases h : k0 = k
    · simp [FolderMap.find, FolderMap.keys, h]
    · have h' : ¬ k = k0 := fun h1 => h h1.symm
      simp only [FolderMap.find, h, if_false, ih]
      simp [FolderMap.keys, h']

theorem firstPass_find_row (account : Int) (rows : List Row)
    (hids : (rows.map Row.folderid).Nodup) (r : Row) (hr : r ∈ rows) :
    (Refresh.firstPass account rows).find r.folderid = some (Refresh.makeFolder account r) := by
  rw [firstPass_of_nodup account rows hids]
  induction rows with
  | nil => simp at hr
  | cons r0 rest ih =>
    simp only [List.map_cons, List.nodup_cons] at hids
    simp only [List.map_cons, FolderMap.find]
    rcases List.mem_cons.mp hr with h | h
    · subst h; simp
    · have hne : ¬ r0.folderid = r.folderid := by
        intro heq
        exact hids.1 (heq ▸ List.mem_map_of_mem Row.folderid h)
      simp only [hne, if_false]
      exact ih hids.2 h


/-! ### Orphans -/

theorem firstPass_parentOf_row (account : Int) (rows : List Row)
    (hids : (rows.map Row.folderid).Nodup) (r : Row) (hr : r ∈ rows) :
    (Refresh.firstPass account rows).parentOf r.folderid = some r.folderparentid := by
  simp [FolderMap.parentOf, firstPass_find_row account rows hids r hr, Refresh.makeFolder,
    IMAPFolder.ctor]

theorem firstPass_isSome_iff (account : Int) (rows : List Row)
    (hids : (rows.map Row.folderid).Nodup) (k : Int) :
    ((Refresh.firstPass account rows).find k).isSome = true ↔ k ∈ rows.map Row.folderid := by
  rw [FolderMap.find_isSome_iff, firstPass_keys account rows hids]

/-- The sub folders of an object after the second pass, for a map whose objects
start without sub folders. -/
theorem secondPass_subItems (account : Int) (rows : List Row) (iteration : List Int)
    (k : Int) (o : FolderObject)
    (h : (Refresh.secondPass (Refresh.firstPass account rows) iteration).folderMap.find k
      = some o) :
    o.subItems = iteration.filter (Refresh.isChildOf (Refresh.firstPass account rows) k) := by
  have hs := foldl_visit_subItems iteration
    { vecObjects := [], folderMap := Refresh.firstPass account rows, errors := [] } k
  unfold Refresh.secondPass at h
  rw [h] at hs
  cases h0 : (Refresh.firstPass account rows).find k with
  | none => simp [h0] at hs
  | some o0 =>
    simp only [h0, Option.map_some', Option.some.injEq] at hs
    rw [hs, (firstPass_entry account rows k o0 h0).2.2]
    simp


/-! ### The refreshed tree -/

theorem mem_preorder_list (f : IMAPFolder) (l : List IMAPFolder) :
    f ∈ preorder.list l ↔ ∃ g ∈ l, f = g ∨ f ∈ g.GetSubFolders.preorder := by
  induction l with
  | nil => simp [preorder.list]
  | cons x xs ih =>
    cases x with
    | mk d sub =>
      simp only [preorder.list, List.mem_cons, List.mem_append, ih]
      constructor
      · rintro (h | h | ⟨g, hg, h⟩)
        · exact ⟨.mk d sub, Or.inl rfl, Or.inl h⟩
        · exact ⟨.mk d sub, Or.inl rfl, Or.inr h⟩
        · exact ⟨g, Or.inr hg, h⟩
      · rintro ⟨g, hg | hg, h⟩
        · subst hg
          rcases h with h | h
          · exact Or.inl h
          · exact Or.inr (Or.inl h)
        · exact Or.inr (Or.inr ⟨g, hg, h⟩)

theorem materialize_data (heap : FolderMap) (depth : Nat) (o : FolderObject) :
    (Refresh.materialize heap depth o).data = o.data := by
  cases depth <;> rfl

/-- Every folder below a materialised object is the image of a heap object that
some heap object points to. -/
theorem materialize_below (heap : FolderMap) :
    ∀ (depth : Nat) (o : FolderObject) (f : IMAPFolder),
      f ∈ (Refresh.materialize heap depth o).GetSubFolders.preorder →
      ∃ k o', (k ∈ o.subItems ∨ ∃ p op, heap.find p = some op ∧ k ∈ op.subItems) ∧
        heap.find k = some o' ∧ f.data = o'.data := by
  intro depth
  induction depth with
  | zero =>
    intro o f hf
    simp [Refresh.materialize, IMAPFolder.GetSubFolders, IMAPFolder.newSubFolders,
      IMAPFolders.ctor, IMAPFolders.preorder, preorder.list] at hf
  | succ n ih =>
    intro o f hf
    simp only [Refresh.materialize, IMAPFolder.GetSubFolders, IMAPFolders.preorder] at hf
    obtain ⟨g, hg, hfg⟩ := (mem_preorder_list f _).mp hf
    obtain ⟨key, hkey, hgk⟩ := List.mem_filterMap.mp hg
    cases hfind : heap.find key with
    | none => simp [hfind] at hgk
    | some o' =>
      simp only [hfind, Option.map_some', Option.some.injEq] at hgk
      subst hgk
      rcases hfg with h | h
      · subst h
        exact ⟨key, o', Or.inl hkey, hfind, materialize_data heap n o'⟩
      · obtain ⟨k2, o2, hk2, hfind2, hdata⟩ := ih o' f h
        refine ⟨k2, o2, Or.inr ?_, hfind2, hdata⟩
        rcases hk2 with h2 | h2
        · exact ⟨key, o', hfind, h2⟩
        · exact h2

/-- Every folder of the refreshed directory is the image of a folder object
that is in `vecObjects` of the second pass or among the sub folders of some
folder object; its id is the key of that object. -/
theorem Refresh_directory_preorder (self : IMAPFolders) (rows : List Row)
    (iteration : List Int) (f : IMAPFolder)
    (hf : f ∈ (self.Refresh (some rows) iteration).directory.preorder) :
    f.GetID ∈
        (Refresh.secondPass (Refresh.firstPass self.GetAccountID rows) iteration).vecObjects ∨
      ∃ p op,
        (Refresh.secondPass (Refresh.firstPass self.GetAccountID rows) iteration).folderMap.find p
          = some op ∧ f.GetID ∈ op.subItems := by
  generalize hst :
    Refresh.secondPass (Refresh.firstPass self.GetAccountID rows) iteration = st at *
  have hid : ∀ k o, st.folderMap.find k = some o → o.data.id = k := by
    intro k o hk
    have h1 := foldl_visit_data iteration
      { vecObjects := [], folderMap := Refresh.firstPass self.GetAccountID rows, errors := [] } k
    have hst2 : List.foldl Refresh.visit
        { vecObjects := [], folderMap := Refresh.firstPass self.GetAccountID rows, errors := [] }
        iteration = st := hst
    rw [hst2, hk] at h1
    cases h0 : (Refresh.firstPass self.GetAccountID rows).find k with
    | none => simp [h0] at h1
    | some o0 =>
      simp only [h0, Option.map_some', Option.some.injEq] at h1
      rw [h1]
      exact (firstPass_entry _ rows k o0 h0).2.1
  simp only [IMAPFolders.Refresh, hst, IMAPFolders.preorder] at hf
  obtain ⟨g, hg, hfg⟩ := (mem_preorder_list f _).mp hf
  obtain ⟨key, hkey, hgk⟩ := List.mem_filterMap.mp hg
  cases hfind : st.folderMap.find key with
  | none => simp [hfind] at hgk
  | some o' =>
    simp only [hfind, Option.map_some', Option.some.injEq] at hgk
    subst hgk
    rcases hfg with h | h
    · subst h
      left
      simp only [IMAPFolder.GetID, materialize_data, hid key o' hfind]
      exact hkey
    · obtain ⟨k2, o2, hk2, hfind2, hdata⟩ := materialize_below _ _ o' f h
      right
      simp only [IMAPFolder.GetID, hdata, hid k2 o2 hfind2]
      rcases hk2 with h2 | h2
      · exact ⟨key, o', hfind, h2⟩
      · exact h2


/-- C5, counterexample.  A directory holding the folder `A` is empty after a
`Refresh` whose query yields no record set: the children are cleared before the
query is made. -/
theorem Refresh_without_recordset_clears :
    (Example.onlyA.Refresh none []).directory.vecObjects ≠ Example.onlyA.vecObjects := by
  intro h
  have h2 := congrArg List.length h
  revert h2
  decide

/-- C5, amended.  Whenever the store query yields no record set, the directory
keeps its account id and parent id, has no children after `Refresh`, whatever it
held before, and no error is reported. -/
theorem Refresh_without_recordset (self : IMAPFolders) (iteration : List Int) :
    (self.Refresh none iteration).directory.vecObjects = [] ∧
    (self.Refresh none iteration).directory.GetAccountID = self.GetAccountID ∧
    (self.Refresh none iteration).directory.GetParentID = self.GetParentID ∧
    (self.Refresh none iteration).errors = [] :=
  ⟨rfl, rfl, rfl, rfl⟩

/-- C9, counterexample.  A directory bound to parent id `5` in account 7, and a
default-constructed directory (account id `0`, parent id `0`), each refreshed
with the row `(1, -1, Inbox)`, hold a child whose parent id is `-1`, not the
parent id of the directory. -/
theorem Refresh_parent_mismatch :
    ((IMAPFolders.ctor 7 5).Refresh (some Example.inboxRow)
      [1]).directory.vecObjects.map IMAPFolder.GetParentFolderID = [-1] ∧
    ((IMAPFolders.ctor 7 5).Refresh (some Example.inboxRow) [1]).directory.GetParentID = 5 ∧
    (IMAPFolders.ctorDefault.Refresh (some Example.inboxRow)
      [1]).directory.vecObjects.map IMAPFolder.GetParentFolderID = [-1] ∧
    (IMAPFolders.ctorDefault.Refresh (some Example.inboxRow) [1]).directory.GetParentID
      = 0 := by
  decide

/-- C9, amended.  After `Refresh`, for every way of constructing the directory,
every record set and every iteration order of the folder map, the directory
keeps its account id and parent id and every node in its children has the
account id of the directory and the parent id `-1`; so a child has the parent
id of the directory exactly when the directory is bound to parent id `-1`. -/
theorem Refresh_children_identity (self : IMAPFolders) (pRS : Option (List Row))
    (iteration : List Int) :
    (self.Refresh pRS iteration).directory.GetAccountID = self.GetAccountID ∧
    (self.Refresh pRS iteration).directory.GetParentID = self.GetParentID ∧
    ∀ f ∈ (self.Refresh pRS iteration).directory.vecObjects,
      f.GetAccountID = (self.Refresh pRS iteration).directory.GetAccountID ∧
      f.GetParentFolderID = -1 ∧
      (f.GetParentFolderID = (self.Refresh pRS iteration).directory.GetParentID
        ↔ self.GetParentID = -1) := by
  cases pRS with
  | none =>
    exact ⟨rfl, rfl, fun f hf => by simp [IMAPFolders.Refresh, IMAPFolders.vecObjects] at hf⟩
  | some rows =>
    refine ⟨rfl, rfl, ?_⟩
    intro f hf
    have hdir : (self.Refresh (some rows) iteration).directory.GetParentID = self.GetParentID := rfl
    have hacc : (self.Refresh (some rows) iteration).directory.GetAccountID
        = self.GetAccountID := rfl
    rw [hdir, hacc]
    simp only [IMAPFolders.Refresh, IMAPFolders.vecObjects] at hf
    obtain ⟨key, hkey, hfk⟩ := List.mem_filterMap.mp hf
    generalize hm0 : Refresh.firstPass self.GetAccountID rows = m0 at *
    have hvec := foldl_visit_vecObjects iteration
      { vecObjects := [], folderMap := m0, errors := [] }
    have hdata := foldl_visit_data iteration
      { vecObjects := [], folderMap := m0, errors := [] } key
    simp only [List.nil_append] at hvec
    unfold Refresh.secondPass at hkey hfk
    rw [hvec] at hkey
    have htop := (List.mem_filter.mp hkey).2
    cases hfind : (List.foldl Refresh.visit
        { vecObjects := [], folderMap := m0, errors := [] } iteration).folderMap.find key with
    | none => simp [hfind] at hfk
    | some o' =>
      simp only [hfind, Option.map_some', Option.some.injEq] at hfk
      rw [hfind] at hdata
      cases h0 : m0.find key with
      | none => simp [h0] at hdata
      | some o0 =>
        simp only [h0, Option.map_some', Option.some.injEq] at hdata
        have hent := firstPass_entry self.GetAccountID rows key o0 (by rw [hm0]; exact h0)
        have hpar : o0.data.parent_id = -1 := by
          simpa [Refresh.isTop, FolderMap.parentOf, h0] using htop
        have hfd : f.data = o0.data := by
          rw [← hfk, materialize_data, hdata]
        have hp : f.GetParentFolderID = -1 := by
          simp [IMAPFolder.GetParentFolderID, hfd, hpar]
        refine ⟨by simp [IMAPFolder.GetAccountID, hfd, hent.1], hp, ?_⟩
        rw [hp]
        exact ⟨fun h => h.symm, fun h => h.symm⟩

/-- C9, witness: the directory of account 7 bound to parent id `-1`, refreshed
with the scenario of the spec, holds `Inbox` with account id 7 and parent id
`-1`. -/
theorem Refresh_children_identity_witness :
    Example.inbox.GetAccountID
      = ((IMAPFolders.ctor 7 (-1)).Refresh (some Example.scenario)
          [3, 1, 2]).directory.GetAccountID ∧
    Example.inbox.GetParentFolderID = -1 ∧
    (Example.inbox.GetParentFolderID
      = ((IMAPFolders.ctor 7 (-1)).Refresh (some Example.scenario) [3, 1, 2]).directory.GetParentID
        ↔ (IMAPFolders.ctor 7 (-1)).GetParentID = -1) :=
  (Refresh_children_identity (IMAPFolders.ctor 7 (-1)) (some Example.scenario) [3, 1, 2]).2.2
    Example.inbox (show Example.inbox ∈ [Example.inbox] from List.mem_singleton.mpr rfl)

/-! ### Direct lookups -/

/-- The non-recursive scan reads nothing but the names of the folders. -/
theorem scan_flat_data (sName : String) (g : IMAPFolder → IMAPFolders)
    (vec : List IMAPFolder) :
    (GetFolderByName.scan sName false
        (vec.map (fun f => IMAPFolder.mk f.data (g f)))).map IMAPFolder.data
      = (GetFolderByName.scan sName false vec).map IMAPFolder.data := by
  induction vec with
  | nil => rfl
  | cons x xs ih =>
    cases x with
    | mk d sub =>
      simp only [List.map_cons, GetFolderByName.scan, IMAPFolder.data]
      cases hE : Equals d.name sName false
      · simpa using ih
      · simp [IMAPFolder.data]

/-- C11.  Non-recursive `GetFolderByName` returns the first child, in child
order, whose name equals the given name without regard to case; the result is
empty exactly when no direct child has such a name; and the child directories
are not consulted: putting any other directories below the children leaves the
folder that is found the same. -/
theorem GetFolderByName_direct (dir : IMAPFolders) (sName : String) :
    dir.GetFolderByName sName false
      = dir.vecObjects.find? (fun f => Equals f.GetFolderName sName false) ∧
    (dir.GetFolderByName sName false = none ↔
      ∀ f ∈ dir.vecObjects, Equals f.GetFolderName sName false = false) ∧
    (∀ g : IMAPFolder → IMAPFolders,
      ((IMAPFolders.mk dir.GetAccountID dir.GetParentID
          (dir.vecObjects.map (fun f => IMAPFolder.mk f.data (g f)))).GetFolderByName
        sName false).map IMAPFolder.data
        = (dir.GetFolderByName sName false).map IMAPFolder.data) := by
  have h := GetFolderByName_flat sName dir
  refine ⟨h, ?_, ?_⟩
  · rw [h, List.find?_eq_none]
    simp [IMAPFolder.hasName]
  · intro g
    cases dir with
    | mk a p vec =>
      simp only [IMAPFolders.GetFolderByName, IMAPFolders.vecObjects]
      exact scan_flat_data sName g vec

/-- C11, witness: the lookup of `x` among `A` (holding a folder `X`) and `X`
returns the direct child with id 3. -/
theorem GetFolderByName_direct_witness :
    (Example.shadowed.GetFolderByName "x" false).map IMAPFolder.GetID = some 3 ∧
    Example.shadowed.GetFolderByName "x" false
      = Example.shadowed.vecObjects.find? (fun f => Equals f.GetFolderName "x" false) :=
  ⟨by decide, (GetFolderByName_direct Example.shadowed "x").1⟩

/-! ### Path lookup -/

theorem resolveChain_cons (dir : IMAPFolders) (s : String) (rest : List String)
    (f : IMAPFolder) (h : dir.resolveChain (s :: rest) = some f) :
    ∃ g, dir.GetFolderByName s false = some g ∧
      ((rest = [] ∧ f = g) ∨ (rest ≠ [] ∧ g.GetSubFolders.resolveChain rest = some f)) := by
  cases rest with
  | nil =>
    simp only [IMAPFolders.resolveChain] at h
    exact ⟨f, h, Or.inl ⟨rfl, rfl⟩⟩
  | cons next r =>
    simp only [IMAPFolders.resolveChain] at h
    cases hfind : dir.GetFolderByName s false with
    | none => simp [hfind] at h
    | some g =>
      simp only [hfind] at h
      exact ⟨g, rfl, Or.inr ⟨by simp, h⟩⟩

theorem directoryAt_cons (dir : IMAPFolders) (s : String) (rest : List String)
    (d : IMAPFolders) (h : dir.directoryAt (s :: rest) = some d) :
    ∃ g, dir.GetFolderByName s false = some g ∧ g.GetSubFolders.directoryAt rest = some d := by
  simp only [IMAPFolders.directoryAt, Option.map_eq_some'] at h
  obtain ⟨f, hf, hd⟩ := h
  obtain ⟨g, hg, hcase⟩ := resolveChain_cons dir s rest f hf
  refine ⟨g, hg, ?_⟩
  rcases hcase with ⟨hnil, hfg⟩ | ⟨hne, hres⟩
  · subst hnil; subst hfg
    simp [IMAPFolders.directoryAt, hd]
  · cases rest with
    | nil => exact absurd rfl hne
    | cons next r =>
      simp [IMAPFolders.directoryAt, hres, hd]

/-- Below a resolved folder the loop follows a chain that resolves. -/
theorem loop_of_resolveChain (self : IMAPFolders) :
    ∀ (path : List String) (cur f : IMAPFolder), path ≠ [] →
      cur.GetSubFolders.resolveChain path = some f →
      GetFolderByFullPath.loop self (some cur) path = some f := by
  intro path
  induction path with
  | nil => intro cur f hne; exact absurd rfl hne
  | cons s rest ih =>
    intro cur f _ h
    obtain ⟨g, hg, hcase⟩ := resolveChain_cons _ s rest f h
    simp only [GetFolderByFullPath.loop, GetFolderByName.bRecursiveDefault, hg]
    rcases hcase with ⟨hnil, hfg⟩ | ⟨hne, hres⟩
    · subst hnil; subst hfg
      simp [GetFolderByFullPath.loop]
    · exact ih g f hne hres

/-- Below a resolved folder the loop ends empty when the last segment is the
first one that fails. -/
theorem loop_last_missing (self : IMAPFolders) (last : String) :
    ∀ (segments : List String) (cur : IMAPFolder) (d : IMAPFolders),
      cur.GetSubFolders.directoryAt segments = some d →
      d.GetFolderByName last false = none →
      GetFolderByFullPath.loop self (some cur) (segments ++ [last]) = none := by
  intro segments
  induction segments with
  | nil =>
    intro cur d hd hlast
    simp only [IMAPFolders.directoryAt, Option.some.injEq] at hd
    subst hd
    simp [GetFolderByFullPath.loop, GetFolderByName.bRecursiveDefault, hlast]
  | cons s rest ih =>
    intro cur d hd hlast
    obtain ⟨g, hg, hrest⟩ := directoryAt_cons _ s rest d hd
    simp only [List.cons_append, GetFolderByFullPath.loop, GetFolderByName.bRecursiveDefault,
      hg]
    exact ih g d hrest hlast

/-- C12.  `GetFolderByFullPath` resolves a fully existing path to the end of
its chain: whenever the segments resolve one after the other, segment 0 by a
non-recursive lookup in this directory and each later one in the child directory
of the folder resolved before, the result is the folder resolved for the last
segment. -/
theorem GetFolderByFullPath_of_resolveChain (dir : IMAPFolders) (vecFolders : List String)
    (f : IMAPFolder) (hchain : dir.resolveChain vecFolders = some f) :
    dir.GetFolderByFullPath vecFolders = some f := by
  cases vecFolders with
  | nil => simp [IMAPFolders.resolveChain] at hchain
  | cons s rest =>
    obtain ⟨g, hg, hcase⟩ := resolveChain_cons dir s rest f hchain
    simp only [IMAPFolders.GetFolderByFullPath, GetFolderByFullPath.loop,
      GetFolderByName.bRecursiveDefault, hg]
    rcases hcase with ⟨hnil, hfg⟩ | ⟨hne, hres⟩
    · subst hnil; subst hfg
      simp [GetFolderByFullPath.loop]
    · exact loop_of_resolveChain dir rest g f hne hres

/-- C12, witness: the path `a / b` in the directory where `A` holds `B`. -/
theorem GetFolderByFullPath_of_resolveChain_witness :
    Example.pathAB.GetFolderByFullPath ["a", "b"] = some (Example.leaf 2 1 1 "B") :=
  GetFolderByFullPath_of_resolveChain Example.pathAB ["a", "b"] (Example.leaf 2 1 1 "B") rfl

/-- C19.  `GetFolderByFullPath` returns "not found" when only the last segment
is missing: whenever the segments before the last resolve one after the other
(or there are none) and the last segment does not resolve in the directory
reached, the result is empty, whatever folders exist elsewhere in the tree. -/
theorem GetFolderByFullPath_last_missing (dir : IMAPFolders) (segments : List String)
    (last : String) (d : IMAPFolders)
    (hreach : dir.directoryAt segments = some d)
    (hlast : d.GetFolderByName last false = none) :
    dir.GetFolderByFullPath (segments ++ [last]) = none := by
  cases segments with
  | nil =>
    simp only [IMAPFolders.directoryAt, Option.some.injEq] at hreach
    subst hreach
    simp [IMAPFolders.GetFolderByFullPath, GetFolderByFullPath.loop,
      GetFolderByName.bRecursiveDefault, hlast]
  | cons s rest =>
    obtain ⟨g, hg, hrest⟩ := directoryAt_cons dir s rest d hreach
    simp only [IMAPFolders.GetFolderByFullPath, List.cons_append, GetFolderByFullPath.loop,
      GetFolderByName.bRecursiveDefault, hg]
    exact loop_last_missing dir last rest g d hrest hlast

/-- C19, witness: `A / B / X` where only `A / B` exists and a folder `X` exists
at the top level. -/
theorem GetFolderByFullPath_last_missing_witness :
    (Example.pathAB.GetFolderByName "X" false).map IMAPFolder.GetID = some 3 ∧
    Example.pathAB.GetFolderByFullPath (["A", "B"] ++ ["X"]) = none :=
  ⟨by decide,
    GetFolderByFullPath_last_missing Example.pathAB ["A", "B"] "X" (IMAPFolders.mk 1 2 [])
      rfl rfl⟩

/-! ### Lookup by id -/

mutual
theorem GetItemByDBIDRecursive_eq_find (folderID : Int) :
    ∀ dir : IMAPFolders,
      dir.GetItemByDBIDRecursive folderID = dir.preorder.find? (IMAPFolder.hasID folderID)
  | .mk _ _ vec => by
    simp only [IMAPFolders.GetItemByDBIDRecursive, IMAPFolders.preorder]
    exact scanByID_eq_find folderID vec
theorem scanByID_eq_find (folderID : Int) :
    ∀ vec : List IMAPFolder,
      GetItemByDBIDRecursive.scan folderID vec
        = (preorder.list vec).find? (IMAPFolder.hasID folderID)
  | [] => by simp [GetItemByDBIDRecursive.scan, preorder.list]
  | .mk d sub :: rest => by
    have h1 := GetItemByDBIDRecursive_eq_find folderID sub
    have h2 := scanByID_eq_find folderID rest
    simp only [GetItemByDBIDRecursive.scan, preorder.list, List.find?_cons, List.find?_append,
      IMAPFolder.hasID, IMAPFolder.GetID, IMAPFolder.data, h1, h2]
    by_cases hE : d.id = folderID
    · simp [hE]
    · simp only [hE, if_false, decide_False]
      cases (IMAPFolders.preorder sub).find? (IMAPFolder.hasID folderID) <;>
        simp [IMAPFolder.hasID, IMAPFolder.GetID]
end

/-- C13.  `GetItemByDBIDRecursive` is sound and complete over the subtree: it
returns the first folder with the given id in depth-first pre-order following
child order, and it returns "not found" if and only if no folder at any depth
under the directory has that id. -/
theorem GetItemByDBIDRecursive_first_in_preorder (dir : IMAPFolders) (folderID : Int) :
    dir.GetItemByDBIDRecursive folderID
      = dir.preorder.find? (fun f => decide (f.GetID = folderID)) ∧
    (dir.GetItemByDBIDRecursive folderID = none ↔
      ∀ f ∈ dir.preorder, f.GetID ≠ folderID) ∧
    (∀ f, dir.GetItemByDBIDRecursive folderID = some f →
      f ∈ dir.preorder ∧ f.GetID = folderID) := by
  have h : dir.GetItemByDBIDRecursive folderID
      = dir.preorder.find? (fun f => decide (f.GetID = folderID)) :=
    GetItemByDBIDRecursive_eq_find folderID dir
  refine ⟨h, ?_, ?_⟩
  · rw [h, List.find?_eq_none]
    simp
  · intro f hf
    rw [h] at hf
    exact ⟨List.mem_of_find?_eq_some hf, by simpa using List.find?_some hf⟩

/-- C13, witness: in the directory where `A` (id 1) holds `X` (id 2) and is
followed by `X` (id 3), the folder with id 2 is found below `A`, and no folder
has id 9. -/
theorem GetItemByDBIDRecursive_first_in_preorder_witness :
    (Example.shadowed.GetItemByDBIDRecursive 2).map IMAPFolder.GetFolderName = some "X" ∧
    Example.shadowed.GetItemByDBIDRecursive 9 = none ∧
    Example.shadowed.GetItemByDBIDRecursive 2
      = Example.shadowed.preorder.find? (fun f => decide (f.GetID = 2)) :=
  ⟨by decide, rfl, (GetItemByDBIDRecursive_first_in_preorder Example.shadowed 2).1⟩

/-! ### Removal -/

theorem erase_split (lRemoveFolderID : Int) (before after : List IMAPFolder)
    (child : IMAPFolder) (hchild : child.GetID = lRemoveFolderID)
    (hbefore : ∀ f ∈ before, f.GetID ≠ lRemoveFolderID) :
    RemoveFolder.erase lRemoveFolderID (before ++ child :: after) = before ++ after := by
  induction before with
  | nil => simp [RemoveFolder.erase, hchild]
  | cons x xs ih =>
    have hx : x.GetID ≠ lRemoveFolderID := hbefore x (by simp)
    have h := ih (fun f hf => hbefore f (by simp [hf]))
    simp only [List.cons_append, RemoveFolder.erase, hx, if_false]
    exact congrArg (List.cons x) h

theorem erase_absent (lRemoveFolderID : Int) (vec : List IMAPFolder)
    (h : ∀ f ∈ vec, f.GetID ≠ lRemoveFolderID) :
    RemoveFolder.erase lRemoveFolderID vec = vec := by
  induction vec with
  | nil => rfl
  | cons x xs ih =>
    have hx : x.GetID ≠ lRemoveFolderID := h x (by simp)
    simp only [RemoveFolder.erase, hx, if_false]
    rw [ih (fun f hf => h f (by simp [hf]))]

/-- C14.  `RemoveFolder` detaches by id among the direct children only.  The
children afterwards are the previous children without the first one whose id is
the id of the given folder, the others in their previous order and unchanged;
when no direct child has that id the children are unchanged, whatever lies
deeper; the directory keeps its account id and parent id; the given folder,
with everything below it, is as it was, and so is the persistence gateway. -/
theorem RemoveFolder_detaches_first_by_id {σ : Type} (w : RemoveFolder.World σ) :
    (∀ before child after, w.self.vecObjects = before ++ child :: after →
      child.GetID = w.pFolderToRemove.GetID →
      (∀ f ∈ before, f.GetID ≠ w.pFolderToRemove.GetID) →
      (IMAPFolders.RemoveFolder w).self.vecObjects = before ++ after) ∧
    ((∀ f ∈ w.self.vecObjects, f.GetID ≠ w.pFolderToRemove.GetID) →
      (IMAPFolders.RemoveFolder w).self.vecObjects = w.self.vecObjects) ∧
    (IMAPFolders.RemoveFolder w).self.GetAccountID = w.self.GetAccountID ∧
    (IMAPFolders.RemoveFolder w).self.GetParentID = w.self.GetParentID ∧
    (IMAPFolders.RemoveFolder w).pFolderToRemove = w.pFolderToRemove ∧
    (IMAPFolders.RemoveFolder w).db = w.db := by
  refine ⟨?_, ?_, rfl, rfl, rfl, rfl⟩
  · intro before child after hsplit hchild hbefore
    have h := erase_split _ before after child hchild hbefore
    rw [← hsplit] at h
    exact h
  · intro habsent
    exact erase_absent _ _ habsent

/-- C14, witness: in the directory where `A` (id 1) holds `X` (id 2) and is
followed by `X` (id 3), removing the folder with id 3 leaves `A`, and removing a
folder with id 2, which only a deeper folder has, leaves both children. -/
theorem RemoveFolder_detaches_first_by_id_witness :
    (IMAPFolders.RemoveFolder Example.removeThird).self.vecObjects
      = [Example.node 1 1 (-1) "A" [Example.leaf 2 1 1 "X"]] ++ [] ∧
    (IMAPFolders.RemoveFolder Example.removeDeep).self.vecObjects
      = Example.shadowed.vecObjects :=
  ⟨(RemoveFolder_detaches_first_by_id Example.removeThird).1
      [Example.node 1 1 (-1) "A" [Example.leaf 2 1 1 "X"]] (Example.leaf 3 1 (-1) "X") []
      rfl rfl (by decide),
    rfl⟩

/-! ### Stamping and naming -/

/-- C17.  `PreSaveObject` stamps ownership: whatever the node carried before,
afterwards its account id and parent id are those of the directory; its id,
name, subscription flag, current UID, creation time and sub folders are
unchanged; and the hook returns `true`. -/
theorem PreSaveObject_stamps (self : IMAPFolders) (pObject : IMAPFolder) :
    (self.PreSaveObject pObject).1.GetAccountID = self.GetAccountID ∧
    (self.PreSaveObject pObject).1.GetParentFolderID = self.GetParentID ∧
    (self.PreSaveObject pObject).1.data.id = pObject.data.id ∧
    (self.PreSaveObject pObject).1.data.name = pObject.data.name ∧
    (self.PreSaveObject pObject).1.data.is_subscribed = pObject.data.is_subscribed ∧
    (self.PreSaveObject pObject).1.data.current_uid = pObject.data.current_uid ∧
    (self.PreSaveObject pObject).1.data.creation_time = pObject.data.creation_time ∧
    (self.PreSaveObject pObject).1.GetSubFolders = pObject.GetSubFolders ∧
    (self.PreSaveObject pObject).2 = true := by
  cases pObject with
  | mk d sub => exact ⟨rfl, rfl, rfl, rfl, rfl, rfl, rfl, rfl, rfl⟩

/-- C17, witness: a folder of account 9 under parent 4 stamped by the top-level
directory of account 1. -/
theorem PreSaveObject_stamps_witness :
    (Example.onlyA.PreSaveObject Example.foreign).1.data
      = ⟨6, 1, -1, "Drafts", false, 0, ""⟩ ∧
    (Example.onlyA.PreSaveObject Example.foreign).1.GetAccountID
      = Example.onlyA.GetAccountID :=
  ⟨by decide, (PreSaveObject_stamps Example.onlyA Example.foreign).1⟩

/-- C18.  `GetCollectionName` depends only on the account id: it is
`"PublicFolders"` if and only if the account id is `0`, it is `"Folders"` for
every other account id, and directories of the same account have the same name
whatever their parent ids and children. -/
theorem GetCollectionName_by_account (self : IMAPFolders) :
    (self.GetCollectionName = "PublicFolders" ↔ self.GetAccountID = 0) ∧
    (self.GetAccountID ≠ 0 → self.GetCollectionName = "Folders") ∧
    (∀ other : IMAPFolders, other.GetAccountID = self.GetAccountID →
      other.GetCollectionName = self.GetCollectionName) := by
  refine ⟨?_, ?_, ?_⟩
  · by_cases h : self.GetAccountID = 0
    · simp [IMAPFolders.GetCollectionName, IMAPFolders.GetIsPublicFolders_, h]
    · simp only [IMAPFolders.GetCollectionName, IMAPFolders.GetIsPublicFolders_, h, if_false,
        Bool.false_eq_true, iff_false]
      decide
  · intro h
    simp [IMAPFolders.GetCollectionName, IMAPFolders.GetIsPublicFolders_, h]
  · intro other h
    simp [IMAPFolders.GetCollectionName, IMAPFolders.GetIsPublicFolders_, h]

/-- C18, witness: the public directory and a directory of account 7. -/
theorem GetCollectionName_by_account_witness :
    (IMAPFolders.ctor 0 (-1)).GetCollectionName = "PublicFolders" ∧
    Example.onlyA.GetCollectionName = "Folders" ∧
    ((IMAPFolders.ctor 7 (-1)).GetCollectionName = "PublicFolders" ↔
      (IMAPFolders.ctor 7 (-1)).GetAccountID = 0) :=
  ⟨by decide, by decide, (GetCollectionName_by_account (IMAPFolders.ctor 7 (-1))).1⟩

/-! ### Sibling names under path creation -/

theorem Equals_trans (a b c : String) (hab : Equals a b false = true)
    (hbc : Equals b c false = true) : Equals a c false = true := by
  simp only [Equals, Bool.false_eq_true, if_false, decide_eq_true_eq] at hab hbc ⊢
  exact hab.trans hbc

theorem storeSub_names (sName : String) (sub : IMAPFolders) (vec : List IMAPFolder) :
    (CreatePath.storeSub sName sub vec).map IMAPFolder.GetFolderName
      = vec.map IMAPFolder.GetFolderName := by
  induction vec with
  | nil => rfl
  | cons x xs ih =>
    cases x with
    | mk d s =>
      cases hE : Equals d.name sName false
      · simp [CreatePath.storeSub, hE, ih, IMAPFolder.GetFolderName, IMAPFolder.data]
      · simp [CreatePath.storeSub, hE, IMAPFolder.GetFolderName, IMAPFolder.data]

theorem storeSub_same (sName : String) (vec : List IMAPFolder) (d : FolderData)
    (s0 : IMAPFolders) (h : vec.find? (IMAPFolder.hasName sName) = some (.mk d s0)) :
    CreatePath.storeSub sName s0 vec = vec := by
  induction vec with
  | nil => rfl
  | cons x xs ih =>
    cases x with
    | mk d1 s1 =>
      cases hE : Equals d1.name sName false with
      | true =>
        have hx : IMAPFolder.hasName sName (.mk d1 s1) = true := hE
        simp only [List.find?_cons, hx, Option.some.injEq, IMAPFolder.mk.injEq] at h
        simp [CreatePath.storeSub, hE, h.2]
      | false =>
        have hx : IMAPFolder.hasName sName (.mk d1 s1) = false := hE
        simp only [List.find?_cons, hx] at h
        simp [CreatePath.storeSub, hE, ih h]

theorem namesUnique_storeSub (sName : String) (sub : IMAPFolders) (vec : List IMAPFolder)
    (hvec : namesUnique.list vec = true) (hsub : sub.namesUnique = true) :
    namesUnique.list (CreatePath.storeSub sName sub vec) = true := by
  induction vec with
  | nil => rfl
  | cons x xs ih =>
    cases x with
    | mk d s =>
      simp only [namesUnique.list, Bool.and_eq_true] at hvec
      cases hE : Equals d.name sName false
      · simp only [CreatePath.storeSub, hE, Bool.false_eq_true, if_false, namesUnique.list,
          Bool.and_eq_true, storeSub_names]
        exact ⟨⟨hvec.1.1, hvec.1.2⟩, ih hvec.2⟩
      · simp only [CreatePath.storeSub, hE, if_true, namesUnique.list, Bool.and_eq_true]
        exact ⟨⟨hvec.1.1, hsub⟩, hvec.2⟩

theorem namesUnique_append (sName : String) (vec : List IMAPFolder) (d : FolderData)
    (sub : IMAPFolders) (hvec : namesUnique.list vec = true)
    (hnone : vec.find? (IMAPFolder.hasName sName) = none) (hd : d.name = sName)
    (hsub : sub.namesUnique = true) :
    namesUnique.list (vec ++ [.mk d sub]) = true := by
  induction vec with
  | nil => simp [namesUnique.list, hsub]
  | cons x xs ih =>
    cases x with
    | mk d1 s1 =>
      simp only [namesUnique.list, Bool.and_eq_true] at hvec
      cases hE : Equals d1.name sName false with
      | true =>
        have hx : IMAPFolder.hasName sName (.mk d1 s1) = true := hE
        simp [List.find?_cons, hx] at hnone
      | false =>
        have hx : IMAPFolder.hasName sName (.mk d1 s1) = false := hE
        simp only [List.find?_cons, hx] at hnone
        have hlast : Equals d1.name (IMAPFolder.mk d sub).GetFolderName false = false := by
          simpa [IMAPFolder.GetFolderName, IMAPFolder.data, hd] using hE
        simp only [List.cons_append, namesUnique.list, Bool.and_eq_true]
        refine ⟨⟨?_, hvec.1.2⟩, ih hvec.2 hnone⟩
        simpa [hlast] using hvec.1.1

theorem namesUnique_find (sName : String) (vec : List IMAPFolder) (d : FolderData)
    (s0 : IMAPFolders) (hvec : namesUnique.list vec = true)
    (h : vec.find? (IMAPFolder.hasName sName) = some (.mk d s0)) :
    s0.namesUnique = true := by
  induction vec with
  | nil => simp at h
  | cons x xs ih =>
    cases x with
    | mk d1 s1 =>
      simp only [namesUnique.list, Bool.and_eq_true] at hvec
      cases hx : IMAPFolder.hasName sName (.mk d1 s1) with
      | true =>
        simp only [List.find?_cons, hx, Option.some.injEq, IMAPFolder.mk.injEq] at h
        rw [← h.2]
        exact hvec.1.2
      | false =>
        simp only [List.find?_cons, hx] at h
        exact ih hvec.2 h

theorem loop_namesUnique {σ : Type} (gw : PersistentIMAPFolder σ) (account : Int) (auto : Bool) :
    ∀ (path : List String) (cont : IMAPFolders) (pf : Option IMAPFolder) (db : σ),
      cont.namesUnique = true →
      (CreatePath.loop gw account auto path cont pf db).container.namesUnique = true := by
  intro path
  induction path with
  | nil => intro cont pf db h; exact h
  | cons s rest ih =>
    intro cont pf db h
    cases hfind : cont.GetFolderByName s false with
    | some pc =>
      cases pc with
      | mk d sub0 =>
        rw [loop_found gw account auto s rest cont pf db _ hfind]
        have hflat := hfind
        rw [GetFolderByName_flat] at hflat
        cases cont with
        | mk a p vec =>
          simp only [IMAPFolders.vecObjects] at hflat
          simp only [IMAPFolders.namesUnique] at h
          simp only [IMAPFolders.namesUnique, IMAPFolders.vecObjects, IMAPFolder.GetSubFolders]
          exact namesUnique_storeSub s _ vec h
            (ih sub0 _ db (namesUnique_find s vec d sub0 h hflat))
    | none =>
      rw [loop_missing gw account auto s rest cont pf db hfind]
      have hflat := hfind
      rw [GetFolderByName_flat] at hflat
      cases cont with
      | mk a p vec =>
        simp only [IMAPFolders.vecObjects] at hflat
        simp only [IMAPFolders.namesUnique] at h
        simp only [IMAPFolders.AddItem, IMAPFolders.namesUnique]
        exact namesUnique_append s vec _ _ h hflat (stamped_name gw account auto s pf db)
          (ih _ _ _ rfl)

/-- A single segment whose name is already present is not created again. -/
theorem loop_single_present {σ : Type} (gw : PersistentIMAPFolder σ) (account : Int)
    (auto : Bool) (s : String) (cont : IMAPFolders) (pf : Option IMAPFolder) (db : σ)
    (h : (cont.GetFolderByName s false).isSome = true) :
    (CreatePath.loop gw account auto [s] cont pf db).container = cont ∧
    (CreatePath.loop gw account auto [s] cont pf db).writes = [] ∧
    (CreatePath.loop gw account auto [s] cont pf db).db = db := by
  obtain ⟨pc, hpc⟩ := Option.isSome_iff_exists.mp h
  rw [loop_found gw account auto s [] cont pf db pc hpc]
  refine ⟨?_, rfl, rfl⟩
  cases pc with
  | mk d sub0 =>
    have hflat := hpc
    rw [GetFolderByName_flat] at hflat
    cases cont with
    | mk a p vec =>
      simp only [IMAPFolders.vecObjects] at hflat
      simp only [CreatePath.loop, IMAPFolder.GetSubFolders, IMAPFolders.vecObjects,
        IMAPFolders.GetAccountID, IMAPFolders.GetParentID, storeSub_same s vec d sub0 hflat]

/-- C15.  `CreatePath` preserves the uniqueness of sibling names (invariant I2):
when no directory of the tree below the starting container has two children
whose names are equal without regard to case, the same holds after `CreatePath`,
for every gateway and path.  And when two names are equal without regard to
case, `CreatePath` of the second on the container `CreatePath` of the first
left makes no write and leaves that container as it was. -/
theorem CreatePath_preserves_namesUnique {σ : Type} (gw : PersistentIMAPFolder σ)
    (self : IMAPFolders) (pParentContainer : IMAPFolders) (vecFolderPath : List String)
    (bAutoSubscribe : Bool) (db : σ)
    (hunique : pParentContainer.namesUnique = true) :
    (self.CreatePath gw pParentContainer vecFolderPath bAutoSubscribe
      db).container.namesUnique = true ∧
    (∀ first second : String, Equals first second false = true →
      (self.CreatePath gw
          (self.CreatePath gw pParentContainer [first] bAutoSubscribe db).container
          [second] bAutoSubscribe
          (self.CreatePath gw pParentContainer [first] bAutoSubscribe db).db).container
        = (self.CreatePath gw pParentContainer [first] bAutoSubscribe db).container ∧
      (self.CreatePath gw
          (self.CreatePath gw pParentContainer [first] bAutoSubscribe db).container
          [second] bAutoSubscribe
          (self.CreatePath gw pParentContainer [first] bAutoSubscribe db).db).writes = []) := by
  refine ⟨loop_namesUnique gw _ _ vecFolderPath pParentContainer none db hunique, ?_⟩
  intro first second heq
  unfold IMAPFolders.CreatePath
  obtain ⟨d, sub0, pf1, db1, hname, hfound⟩ :=
    loop_first_segment gw self.GetAccountID bAutoSubscribe first [] pParentContainer none db
  have hsecond : ((CreatePath.loop gw self.GetAccountID bAutoSubscribe [first]
      pParentContainer none db).container.GetFolderByName second false).isSome = true := by
    rw [GetFolderByName_flat] at hfound ⊢
    have hmem := List.mem_of_find?_eq_some hfound
    have hmatch : IMAPFolder.hasName second
        (.mk d (CreatePath.loop gw self.GetAccountID bAutoSubscribe [] sub0 pf1 db1).container)
        = true := Equals_trans _ _ _ hname heq
    cases hf : List.find? (IMAPFolder.hasName second)
        (CreatePath.loop gw self.GetAccountID bAutoSubscribe [first]
          pParentContainer none db).container.vecObjects with
    | some g => rfl
    | none =>
      rw [List.find?_eq_none] at hf
      exact absurd hmatch (hf _ hmem)
  have h := loop_single_present gw self.GetAccountID bAutoSubscribe second _ none
    (CreatePath.loop gw self.GetAccountID bAutoSubscribe [first] pParentContainer none db).db
    hsecond
  exact ⟨h.1, h.2.1⟩

/-- C15, witness: `CreatePath` of `Work` and then of `work` on an empty
top-level directory leaves exactly one folder in it. -/
theorem CreatePath_preserves_namesUnique_witness :
    ((IMAPFolders.ctor 1 (-1)).CreatePath Example.counting
        ((IMAPFolders.ctor 1 (-1)).CreatePath Example.counting (IMAPFolders.ctor 1 (-1))
          ["Work"] true 0).container
        ["work"] true
        ((IMAPFolders.ctor 1 (-1)).CreatePath Example.counting (IMAPFolders.ctor 1 (-1))
          ["Work"] true 0).db).container.vecObjects.map IMAPFolder.GetFolderName = ["Work"] ∧
    ((IMAPFolders.ctor 1 (-1)).CreatePath Example.counting
        ((IMAPFolders.ctor 1 (-1)).CreatePath Example.counting (IMAPFolders.ctor 1 (-1))
          ["Work"] true 0).container
        ["work"] true
        ((IMAPFolders.ctor 1 (-1)).CreatePath Example.counting (IMAPFolders.ctor 1 (-1))
          ["Work"] true 0).db).writes = [] :=
  ⟨by decide,
    ((CreatePath_preserves_namesUnique Example.counting (IMAPFolders.ctor 1 (-1))
      (IMAPFolders.ctor 1 (-1)) [] true 0 rfl).2 "Work" "work" (by decide)).2⟩

/-! ### The links the second pass makes -/

theorem FolderMap.keys_addSubItem (m : FolderMap) (p c : Int) :
    (m.addSubItem p c).keys = m.keys := by
  induction m with
  | nil => rfl
  | cons e rest ih =>
    obtain ⟨k, v⟩ := e
    by_cases h : k = p
    · simp [FolderMap.addSubItem, FolderMap.keys, h]
    · simp only [FolderMap.addSubItem, h, if_false, FolderMap.keys, List.map_cons] at ih ⊢
      rw [ih]

theorem visit_keys (st : Refresh.State) (key : Int) :
    (Refresh.visit st key).folderMap.keys = st.folderMap.keys := by
  unfold Refresh.visit
  cases h : st.folderMap.find key with
  | none => rfl
  | some folder =>
    simp only
    split
    · rfl
    · cases h2 : st.folderMap.find folder.data.parent_id with
      | none => rfl
      | some par => exact FolderMap.keys_addSubItem _ _ _

theorem foldl_visit_keys (iteration : List Int) (st : Refresh.State) :
    (iteration.foldl Refresh.visit st).folderMap.keys = st.folderMap.keys := by
  induction iteration generalizing st with
  | nil => rfl
  | cons k rest ih => simp only [List.foldl_cons, ih, visit_keys]

theorem row_eq_of_id {rows : List Row} (hids : (rows.map Row.folderid).Nodup)
    {r r' : Row} (hr : r ∈ rows) (hr' : r' ∈ rows) (h : r.folderid = r'.folderid) :
    r = r' :=
  List.inj_on_of_nodup_map hids hr hr' h

/-- The second pass, for rows with distinct ids and an iteration over the keys
of the folder map, leaves the links described by `Refresh.Built`. -/
theorem secondPass_built (account : Int) (rows : List Row) (iteration : List Int)
    (hids : (rows.map Row.folderid).Nodup)
    (hiter : iteration.Perm (Refresh.firstPass account rows).keys) :
    Refresh.Built rows (Refresh.secondPass (Refresh.firstPass account rows) iteration) := by
  have hkeys := firstPass_keys account rows hids
  rw [hkeys] at hiter
  have hnodup : iteration.Nodup := hiter.nodup_iff.mpr hids
  have hvec := foldl_visit_vecObjects iteration
    { vecObjects := [], folderMap := Refresh.firstPass account rows, errors := [] }
  simp only [List.nil_append] at hvec
  have hsub := secondPass_subItems account rows iteration
  refine
    { ids_nodup := hids
      keys_eq := ?_
      id_of := ?_
      vec := ?_
      sub := ?_
      vec_nodup := ?_
      sub_nodup := ?_ }
  · unfold Refresh.secondPass
    rw [foldl_visit_keys]
    exact hkeys
  · intro k o hk
    have h1 := foldl_visit_data iteration
      { vecObjects := [], folderMap := Refresh.firstPass account rows, errors := [] } k
    unfold Refresh.secondPass at hk
    rw [hk] at h1
    cases h0 : (Refresh.firstPass account rows).find k with
    | none => simp [h0] at h1
    | some o0 =>
      simp only [h0, Option.map_some', Option.some.injEq] at h1
      rw [h1]
      exact (firstPass_entry _ rows k o0 h0).2.1
  · intro k
    unfold Refresh.secondPass
    rw [hvec, List.mem_filter]
    constructor
    · rintro ⟨hmem, htop⟩
      obtain ⟨r, hr, hrk⟩ := List.mem_map.mp (hiter.mem_iff.mp hmem)
      refine ⟨r, hr, hrk, ?_⟩
      subst hrk
      simpa [Refresh.isTop, firstPass_parentOf_row account rows hids r hr] using htop
    · rintro ⟨r, hr, hrk, hp⟩
      subst hrk
      refine ⟨hiter.mem_iff.mpr (List.mem_map_of_mem Row.folderid hr), ?_⟩
      simp [Refresh.isTop, firstPass_parentOf_row account rows hids r hr, hp]
  · intro p o hp k
    rw [hsub p o hp, List.mem_filter]
    have hpin : p ∈ rows.map Row.folderid := by
      have h1 := foldl_visit_sameLinks iteration
        { vecObjects := [], folderMap := Refresh.firstPass account rows, errors := [] }
      have h2 : ((Refresh.firstPass account rows).find p).isSome = true := by
        rw [← h1.2 p]
        unfold Refresh.secondPass at hp
        simp [hp]
      exact (firstPass_isSome_iff account rows hids p).mp h2
    have hsome := (firstPass_isSome_iff account rows hids p).mpr hpin
    constructor
    · rintro ⟨hmem, hchild⟩
      obtain ⟨r, hr, hrk⟩ := List.mem_map.mp (hiter.mem_iff.mp hmem)
      refine ⟨r, hr, hrk, ?_⟩
      subst hrk
      simp only [Refresh.isChildOf, firstPass_parentOf_row account rows hids r hr,
        Bool.and_eq_true, decide_eq_true_eq] at hchild
      exact ⟨hchild.1.2, hchild.1.2 ▸ hchild.1.1⟩
    · rintro ⟨r, hr, hrk, hrp, hne⟩
      subst hrk
      refine ⟨hiter.mem_iff.mpr (List.mem_map_of_mem Row.folderid hr), ?_⟩
      simp only [Refresh.isChildOf, firstPass_parentOf_row account rows hids r hr,
        Bool.and_eq_true, decide_eq_true_eq]
      rw [hrp]
      exact ⟨⟨hne, rfl⟩, hsome⟩
  · unfold Refresh.secondPass
    rw [hvec]
    exact hnodup.filter _
  · intro p o hp
    rw [hsub p o hp]
    exact hnodup.filter _

/-! ### Parent chains -/

theorem ReachesRoot_inv {rows : List Row} {n : Nat} {k : Int}
    (h : Refresh.ReachesRoot rows n k) :
    (∃ r ∈ rows, r.folderid = k ∧ r.folderparentid = -1 ∧ n = 0) ∨
    (∃ r ∈ rows, ∃ m, r.folderid = k ∧ r.folderparentid ≠ -1 ∧
      Refresh.ReachesRoot rows m r.folderparentid ∧ n = m + 1) := by
  cases h with
  | top r hr hp => exact Or.inl ⟨r, hr, rfl, hp, rfl⟩
  | step r m hr hp hrec => exact Or.inr ⟨r, hr, m, rfl, hp, hrec, rfl⟩

theorem ReachesRoot_mem {rows : List Row} {n : Nat} {k : Int}
    (h : Refresh.ReachesRoot rows n k) : k ∈ rows.map Row.folderid := by
  rcases ReachesRoot_inv h with ⟨r, hr, hk, _⟩ | ⟨r, hr, _, hk, _⟩
  · exact hk ▸ List.mem_map_of_mem Row.folderid hr
  · exact hk ▸ List.mem_map_of_mem Row.folderid hr

/-- A row has one level only. -/
theorem ReachesRoot_unique {rows : List Row} (hids : (rows.map Row.folderid).Nodup) :
    ∀ {a : Nat} {k : Int}, Refresh.ReachesRoot rows a k →
      ∀ {b : Nat}, Refresh.ReachesRoot rows b k → a = b := by
  intro a k h1
  induction h1 with
  | top r hr hp =>
    intro b h2
    rcases ReachesRoot_inv h2 with ⟨r', hr', hk, _, hb⟩ | ⟨r', hr', m, hk, hp', _, _⟩
    · exact hb.symm
    · have := row_eq_of_id hids hr' hr hk
      subst this
      exact absurd hp hp'
  | step r level hr hp _ ih =>
    intro b h2
    rcases ReachesRoot_inv h2 with ⟨r', hr', hk, hp', _⟩ | ⟨r', hr', m, hk, _, hrec, hb⟩
    · have := row_eq_of_id hids hr' hr hk
      subst this
      exact absurd hp' hp
    · have := row_eq_of_id hids hr' hr hk
      subst this
      rw [hb, ih hrec]

/-- The rows on the way from a row to the top are distinct fetched rows. -/
theorem ReachesRoot_chain {rows : List Row} (hids : (rows.map Row.folderid).Nodup) :
    ∀ {n : Nat} {k : Int}, Refresh.ReachesRoot rows n k →
      ∃ chain : List Int, chain.length = n + 1 ∧ chain.Nodup ∧
        (∀ x ∈ chain, x ∈ rows.map Row.folderid) ∧
        (∀ x ∈ chain, ∃ j, j ≤ n ∧ Refresh.ReachesRoot rows j x) := by
  intro n k h
  induction h with
  | top r hr hp =>
    refine ⟨[r.folderid], rfl, List.nodup_singleton _, ?_, ?_⟩
    · intro x hx
      rw [List.mem_singleton] at hx
      exact hx ▸ List.mem_map_of_mem Row.folderid hr
    · intro x hx
      rw [List.mem_singleton] at hx
      exact ⟨0, le_refl 0, hx ▸ Refresh.ReachesRoot.top r hr hp⟩
  | step r level hr hp hrec ih =>
    obtain ⟨chain, hlen, hnd, hsub, hlev⟩ := ih
    refine ⟨r.folderid :: chain, by simp [hlen], ?_, ?_, ?_⟩
    · refine List.nodup_cons.mpr ⟨?_, hnd⟩
      intro hmem
      obtain ⟨j, hj, hjr⟩ := hlev _ hmem
      have := ReachesRoot_unique hids hjr (Refresh.ReachesRoot.step r level hr hp hrec)
      omega
    · intro x hx
      rcases List.mem_cons.mp hx with h | h
      · exact h ▸ List.mem_map_of_mem Row.folderid hr
      · exact hsub x h
    · intro x hx
      rcases List.mem_cons.mp hx with h | h
      · exact ⟨level + 1, le_refl _, h ▸ Refresh.ReachesRoot.step r level hr hp hrec⟩
      · obtain ⟨j, hj, hjr⟩ := hlev x h
        exact ⟨j, by omega, hjr⟩

/-- A parent chain that reaches the top has fewer steps than there are rows. -/
theorem ReachesRoot_lt_length {rows : List Row} (hids : (rows.map Row.folderid).Nodup)
    {n : Nat} {k : Int} (h : Refresh.ReachesRoot rows n k) : n < rows.length := by
  obtain ⟨chain, hlen, hnd, hsub, _⟩ := ReachesRoot_chain hids h
  have hle := (List.subperm_of_subset hnd hsub).length_le
  simp only [List.length_map] at hle
  omega

theorem find_row_of_mem {rows : List Row} (hids : (rows.map Row.folderid).Nodup)
    {r : Row} (hr : r ∈ rows) :
    rows.find? (fun x => decide (x.folderid = r.folderid)) = some r := by
  cases hf : rows.find? (fun x => decide (x.folderid = r.folderid)) with
  | none =>
    rw [List.find?_eq_none] at hf
    exact absurd (by simp) (hf r hr)
  | some r' =>
    have h1 := List.mem_of_find?_eq_some hf
    have h2 : r'.folderid = r.folderid := by simpa using List.find?_some hf
    rw [row_eq_of_id hids h1 hr h2]

theorem chainReachesRoot_of_ReachesRoot {rows : List Row}
    (hids : (rows.map Row.folderid).Nodup) :
    ∀ {n : Nat} {k : Int}, Refresh.ReachesRoot rows n k →
      ∀ fuel, n < fuel → Refresh.chainReachesRoot rows fuel k = true := by
  intro n k h
  induction h with
  | top r hr hp =>
    intro fuel hf
    obtain ⟨f, rfl⟩ : ∃ f, fuel = f + 1 := ⟨fuel - 1, by omega⟩
    simp [Refresh.chainReachesRoot, find_row_of_mem hids hr, hp]
  | step r level hr hp _ ih =>
    intro fuel hf
    obtain ⟨f, rfl⟩ : ∃ f, fuel = f + 1 := ⟨fuel - 1, by omega⟩
    simp only [Refresh.chainReachesRoot, find_row_of_mem hids hr, hp, if_false]
    exact ih f (by omega)

theorem ReachesRoot_of_chainReachesRoot {rows : List Row} :
    ∀ (fuel : Nat) (k : Int), Refresh.chainReachesRoot rows fuel k = true →
      ∃ n, Refresh.ReachesRoot rows n k := by
  intro fuel
  induction fuel with
  | zero => intro k h; simp [Refresh.chainReachesRoot] at h
  | succ f ih =>
    intro k h
    simp only [Refresh.chainReachesRoot] at h
    cases hf : rows.find? (fun r => decide (r.folderid = k)) with
    | none => simp [hf] at h
    | some r =>
      simp only [hf] at h
      have hr := List.mem_of_find?_eq_some hf
      have hk : r.folderid = k := by simpa using List.find?_some hf
      by_cases hp : r.folderparentid = -1
      · exact ⟨0, hk ▸ Refresh.ReachesRoot.top r hr hp⟩
      · simp only [hp, if_false] at h
        obtain ⟨n, hn⟩ := ih _ h
        exact ⟨n + 1, hk ▸ Refresh.ReachesRoot.step r n hr hp hn⟩

/-- The executable test with as much fuel as there are rows decides whether the
parent chain of a row reaches the top. -/
theorem chainReachesRoot_iff {rows : List Row} (hids : (rows.map Row.folderid).Nodup)
    (k : Int) :
    Refresh.chainReachesRoot rows rows.length k = true ↔ ∃ n, Refresh.ReachesRoot rows n k :=
  ⟨ReachesRoot_of_chainReachesRoot _ k,
    fun ⟨_, hn⟩ => chainReachesRoot_of_ReachesRoot hids hn _ (ReachesRoot_lt_length hids hn)⟩

/-! ### Pre-order listings -/

theorem mem_preorder_of_mem_vecObjects (dir : IMAPFolders) (g : IMAPFolder)
    (h : g ∈ dir.vecObjects) : g ∈ dir.preorder := by
  cases dir with
  | mk a p vec =>
    simp only [IMAPFolders.preorder, IMAPFolders.vecObjects] at h ⊢
    exact (mem_preorder_list g vec).mpr ⟨g, h, Or.inl rfl⟩

theorem mem_preorder_iff (dir : IMAPFolders) (f : IMAPFolder) :
    f ∈ dir.preorder ↔ ∃ g ∈ dir.vecObjects, f = g ∨ f ∈ g.GetSubFolders.preorder := by
  cases dir with
  | mk a p vec =>
    simp only [IMAPFolders.preorder, IMAPFolders.vecObjects]
    exact mem_preorder_list f vec

mutual
theorem preorder_trans (f g : IMAPFolder) (hf : f ∈ g.GetSubFolders.preorder) :
    ∀ dir : IMAPFolders, g ∈ dir.preorder → f ∈ dir.preorder
  | .mk _ _ vec => by
    intro hg
    simp only [IMAPFolders.preorder] at hg ⊢
    exact preorder_list_trans f g hf vec hg
theorem preorder_list_trans (f g : IMAPFolder) (hf : f ∈ g.GetSubFolders.preorder) :
    ∀ vec : List IMAPFolder, g ∈ preorder.list vec → f ∈ preorder.list vec
  | [] => by
    intro hg
    simp [preorder.list] at hg
  | .mk d sub :: rest => by
    intro hg
    simp only [preorder.list, List.mem_cons, List.mem_append] at hg ⊢
    rcases hg with h | h | h
    · subst h
      exact Or.inr (Or.inl hf)
    · exact Or.inr (Or.inl (preorder_trans f g hf sub h))
    · exact Or.inr (Or.inr (preorder_list_trans f g hf rest h))
end

/-- The ids of a folder and of all folders below it. -/
theorem mem_ids_preorder_list (x : Int) (l : List IMAPFolder) :
    x ∈ (preorder.list l).map IMAPFolder.GetID ↔
      ∃ g ∈ l, x ∈ g.GetID :: g.GetSubFolders.preorder.map IMAPFolder.GetID := by
  constructor
  · intro hx
    obtain ⟨f, hf, hfx⟩ := List.mem_map.mp hx
    obtain ⟨g, hg, hcase⟩ := (mem_preorder_list f l).mp hf
    refine ⟨g, hg, ?_⟩
    rcases hcase with h | h
    · subst h; subst hfx; exact List.mem_cons_self _ _
    · exact List.mem_cons_of_mem _ (hfx ▸ List.mem_map_of_mem IMAPFolder.GetID h)
  · rintro ⟨g, hg, hx⟩
    rcases List.mem_cons.mp hx with h | h
    · exact List.mem_map.mpr ⟨g, (mem_preorder_list g l).mpr ⟨g, hg, Or.inl rfl⟩, h.symm⟩
    · obtain ⟨f, hf, hfx⟩ := List.mem_map.mp h
      exact List.mem_map.mpr ⟨f, (mem_preorder_list f l).mpr ⟨g, hg, Or.inr hf⟩, hfx⟩

/-- The ids in the pre-order listing of siblings are distinct when they are so
below every sibling and no id occurs at or below two siblings. -/
theorem nodup_ids_preorder_list (l : List IMAPFolder)
    (hown : ∀ g ∈ l, (g.GetID :: g.GetSubFolders.preorder.map IMAPFolder.GetID).Nodup)
    (hapart : l.Pairwise (fun g h =>
      ∀ x, x ∈ g.GetID :: g.GetSubFolders.preorder.map IMAPFolder.GetID →
        x ∉ h.GetID :: h.GetSubFolders.preorder.map IMAPFolder.GetID)) :
    ((preorder.list l).map IMAPFolder.GetID).Nodup := by
  induction l with
  | nil => simp [preorder.list]
  | cons g rest ih =>
    cases g with
    | mk d sub =>
      have hhead := hown (.mk d sub) (List.mem_cons_self _ _)
      have hrest := ih (fun g hg => hown g (List.mem_cons_of_mem _ hg))
        (List.Pairwise.of_cons hapart)
      have hrel := (List.pairwise_cons.mp hapart).1
      have hsplit : (preorder.list (.mk d sub :: rest)).map IMAPFolder.GetID
          = ((IMAPFolder.mk d sub).GetID ::
              (IMAPFolder.mk d sub).GetSubFolders.preorder.map IMAPFolder.GetID)
            ++ (preorder.list rest).map IMAPFolder.GetID := by
        simp [preorder.list, IMAPFolder.GetSubFolders]
      rw [hsplit]
      refine List.nodup_append.mpr ⟨hhead, hrest, ?_⟩
      intro x hx1 hx2
      obtain ⟨h, hh, hxh⟩ := (mem_ids_preorder_list x rest).mp hx2
      exact hrel h hh x hx1 hxh

/-! ### Ancestors -/

theorem Ancestor_inv {rows : List Row} {p x : Int} (h : Refresh.Ancestor rows p x) :
    ∃ r ∈ rows, r.folderid = x ∧ r.folderparentid ≠ -1 ∧
      ((r.folderparentid = p ∧ p ∈ rows.map Row.folderid) ∨
        Refresh.Ancestor rows p r.folderparentid) := by
  cases h with
  | child r hr hp hne hin => exact ⟨r, hr, rfl, hp ▸ hne, Or.inl ⟨hp, hin⟩⟩
  | step r hr hne hrec => exact ⟨r, hr, rfl, hne, Or.inr hrec⟩

theorem Ancestor_trans {rows : List Row} {p c x : Int} (hpc : Refresh.Ancestor rows p c)
    (hcx : Refresh.Ancestor rows c x) : Refresh.Ancestor rows p x := by
  induction hcx with
  | child r hr hp hne _ => exact Refresh.Ancestor.step r hr (hp ▸ hne) (hp ▸ hpc)
  | step r hr hne _ ih => exact Refresh.Ancestor.step r hr hne ih

/-- A row lies deeper than each of its ancestors. -/
theorem Ancestor_level {rows : List Row} {p x : Int} (h : Refresh.Ancestor rows p x) :
    ∀ {n : Nat}, Refresh.ReachesRoot rows n p →
      ∃ j, n < j ∧ Refresh.ReachesRoot rows j x := by
  induction h with
  | child r hr hp hne _ =>
    intro n hn
    exact ⟨n + 1, by omega, Refresh.ReachesRoot.step r n hr (hp ▸ hne) (hp ▸ hn)⟩
  | step r hr hne _ ih =>
    intro n hn
    obtain ⟨j, hj, hjr⟩ := ih hn
    exact ⟨j + 1, by omega, Refresh.ReachesRoot.step r j hr hne hjr⟩

/-- Two ancestors of a row on the same level are the same row. -/
theorem Ancestor_same_level {rows : List Row} (hids : (rows.map Row.folderid).Nodup)
    {c1 c2 x : Int} {m : Nat} (h1 : Refresh.Ancestor rows c1 x)
    (hl1 : Refresh.ReachesRoot rows m c1) (hl2 : Refresh.ReachesRoot rows m c2) :
    Refresh.Ancestor rows c2 x → c1 = c2 := by
  induction h1 with
  | child r hr hp hne _ =>
    intro h2
    obtain ⟨r', hr', hk, _, hcase⟩ := Ancestor_inv h2
    have := row_eq_of_id hids hr' hr hk
    subst this
    rcases hcase with ⟨h, _⟩ | h
    · exact hp.symm.trans h
    · rw [hp] at h
      obtain ⟨j, hj, hjr⟩ := Ancestor_level h hl2
      have := ReachesRoot_unique hids hjr hl1
      omega
  | step r hr hne hrec ih =>
    intro h2
    obtain ⟨r', hr', hk, _, hcase⟩ := Ancestor_inv h2
    have := row_eq_of_id hids hr' hr hk
    subst this
    rcases hcase with ⟨h, _⟩ | h
    · rw [h] at hrec
      obtain ⟨j, hj, hjr⟩ := Ancestor_level hrec hl1
      have := ReachesRoot_unique hids hjr hl2
      omega
    · exact ih h

/-! ### The tree `Refresh` builds -/

theorem Refresh.Built.find_of_mem {rows : List Row} {st : Refresh.State}
    (hb : Refresh.Built rows st) {k : Int} (hk : k ∈ rows.map Row.folderid) :
    ∃ o, st.folderMap.find k = some o := by
  have h := (FolderMap.find_isSome_iff st.folderMap k).mpr (hb.keys_eq ▸ hk)
  exact Option.isSome_iff_exists.mp h

theorem Refresh.Built.mem_of_find {rows : List Row} {st : Refresh.State}
    (hb : Refresh.Built rows st) {k : Int} {o : FolderObject}
    (hk : st.folderMap.find k = some o) : k ∈ rows.map Row.folderid := by
  have h := (FolderMap.find_isSome_iff st.folderMap k).mp (by simp [hk])
  rw [hb.keys_eq] at h
  exact h

/-- The children of a materialised object. -/
theorem materialize_children (heap : FolderMap) (depth : Nat) (o : FolderObject)
    (g : IMAPFolder) :
    g ∈ (Refresh.materialize heap (depth + 1) o).GetSubFolders.vecObjects ↔
      ∃ c ∈ o.subItems, ∃ oc, heap.find c = some oc ∧
        g = Refresh.materialize heap depth oc := by
  simp only [Refresh.materialize, IMAPFolder.GetSubFolders, IMAPFolders.vecObjects,
    List.mem_filterMap]
  constructor
  · rintro ⟨c, hc, hg⟩
    cases hfind : heap.find c with
    | none => simp [hfind] at hg
    | some oc =>
      simp only [hfind, Option.map_some', Option.some.injEq] at hg
      exact ⟨c, hc, oc, hfind, hg.symm⟩
  · rintro ⟨c, hc, oc, hfind, hg⟩
    exact ⟨c, hc, by simp [hfind, hg]⟩

/-- Every folder below a materialised object has that object among its
ancestors. -/
theorem materialize_ancestor {rows : List Row} {st : Refresh.State}
    (hb : Refresh.Built rows st) :
    ∀ (depth : Nat) (p : Int) (o : FolderObject), st.folderMap.find p = some o →
      ∀ f ∈ (Refresh.materialize st.folderMap depth o).GetSubFolders.preorder,
        Refresh.Ancestor rows p f.GetID := by
  intro depth
  induction depth with
  | zero =>
    intro p o _ f hf
    simp [Refresh.materialize, IMAPFolder.GetSubFolders, IMAPFolder.newSubFolders,
      IMAPFolders.ctor, IMAPFolders.preorder, preorder.list] at hf
  | succ d ih =>
    intro p o hp f hf
    obtain ⟨g, hg, hcase⟩ := (mem_preorder_iff _ f).mp hf
    obtain ⟨c, hc, oc, hfind, hgc⟩ := (materialize_children _ d o g).mp hg
    obtain ⟨r, hr, hrk, hrp, hne⟩ := (hb.sub p o hp c).mp hc
    have hcid : g.GetID = c := by
      rw [hgc]
      simp only [IMAPFolder.GetID, materialize_data]
      exact hb.id_of c oc hfind
    have hanc : Refresh.Ancestor rows p c :=
      hrk ▸ Refresh.Ancestor.child r hr hrp hne (hb.mem_of_find hp)
    rcases hcase with h | h
    · rw [h, hcid]; exact hanc
    · rw [hgc] at h
      exact Ancestor_trans hanc (ih c oc hfind f h)

/-- An id at or below a materialised object is its key or a descendant of it. -/
theorem materialize_at_or_below {rows : List Row} {st : Refresh.State}
    (hb : Refresh.Built rows st) (depth : Nat) (c : Int) (oc : FolderObject)
    (hfind : st.folderMap.find c = some oc) (x : Int)
    (hx : x ∈ (Refresh.materialize st.folderMap depth oc).GetID ::
      (Refresh.materialize st.folderMap depth oc).GetSubFolders.preorder.map IMAPFolder.GetID) :
    x = c ∨ Refresh.Ancestor rows c x := by
  rcases List.mem_cons.mp hx with h | h
  · left
    rw [h]
    simp only [IMAPFolder.GetID, materialize_data]
    exact hb.id_of c oc hfind
  · right
    obtain ⟨f, hf, hfx⟩ := List.mem_map.mp h
    exact hfx ▸ materialize_ancestor hb depth c oc hfind f hf

/-- The ids in the trees of distinct keys of one level are distinct, when they
are so below each key. -/
theorem nodup_ids_forest {rows : List Row} {st : Refresh.State}
    (hb : Refresh.Built rows st) (depth m : Nat) (keys : List Int) (hkeys : keys.Nodup)
    (hlevel : ∀ c ∈ keys, Refresh.ReachesRoot rows m c)
    (hbelow : ∀ c ∈ keys, ∀ oc, st.folderMap.find c = some oc →
      ((Refresh.materialize st.folderMap depth oc).GetSubFolders.preorder.map
        IMAPFolder.GetID).Nodup) :
    ((preorder.list (keys.filterMap
        (fun key => (st.folderMap.find key).map (Refresh.materialize st.folderMap depth)))).map
      IMAPFolder.GetID).Nodup := by
  apply nodup_ids_preorder_list
  · intro g hg
    obtain ⟨c, hc, hgc⟩ := List.mem_filterMap.mp hg
    cases hfind : st.folderMap.find c with
    | none => simp [hfind] at hgc
    | some oc =>
      simp only [hfind, Option.map_some', Option.some.injEq] at hgc
      subst hgc
      refine List.nodup_cons.mpr ⟨?_, hbelow c hc oc hfind⟩
      intro hmem
      obtain ⟨f, hf, hfx⟩ := List.mem_map.mp hmem
      have hanc := materialize_ancestor hb depth c oc hfind f hf
      have hid : (Refresh.materialize st.folderMap depth oc).GetID = c := by
        simp only [IMAPFolder.GetID, materialize_data]
        exact hb.id_of c oc hfind
      rw [hfx, hid] at hanc
      obtain ⟨j, hj, hjr⟩ := Ancestor_level hanc (hlevel c hc)
      have := ReachesRoot_unique hb.ids_nodup hjr (hlevel c hc)
      omega
  · refine List.Pairwise.filterMap _ ?_ (List.Pairwise.and_mem.mp hkeys)
    intro a a' ⟨ha, ha', hne⟩ b hb1 b' hb2 x hx hx'
    cases hfa : st.folderMap.find a with
    | none => simp [hfa] at hb1
    | some oa =>
      cases hfa' : st.folderMap.find a' with
      | none => simp [hfa'] at hb2
      | some oa' =>
        simp only [hfa, Option.map_some', Option.mem_def, Option.some.injEq] at hb1
        simp only [hfa', Option.map_some', Option.mem_def, Option.some.injEq] at hb2
        subst hb1; subst hb2
        have h1 := materialize_at_or_below hb depth a oa hfa x hx
        have h2 := materialize_at_or_below hb depth a' oa' hfa' x hx'
        rcases h1 with h1 | h1 <;> rcases h2 with h2 | h2
        · exact hne (h1.symm.trans h2)
        · rw [h1] at h2
          obtain ⟨j, hj, hjr⟩ := Ancestor_level h2 (hlevel a' ha')
          have := ReachesRoot_unique hb.ids_nodup hjr (hlevel a ha)
          omega
        · rw [h2] at h1
          obtain ⟨j, hj, hjr⟩ := Ancestor_level h1 (hlevel a ha)
          have := ReachesRoot_unique hb.ids_nodup hjr (hlevel a' ha')
          omega
        · exact hne (Ancestor_same_level hb.ids_nodup h1 (hlevel a ha) (hlevel a' ha') h2)

/-- Below an object whose parent chain reaches the top, every id occurs once. -/
theorem materialize_nodup {rows : List Row} {st : Refresh.State}
    (hb : Refresh.Built rows st) :
    ∀ (depth : Nat) (p : Int) (o : FolderObject) (n : Nat),
      st.folderMap.find p = some o → Refresh.ReachesRoot rows n p →
      ((Refresh.materialize st.folderMap depth o).GetSubFolders.preorder.map
        IMAPFolder.GetID).Nodup := by
  intro depth
  induction depth with
  | zero =>
    intro p o n _ _
    simp [Refresh.materialize, IMAPFolder.GetSubFolders, IMAPFolder.newSubFolders,
      IMAPFolders.ctor, IMAPFolders.preorder, preorder.list]
  | succ d ih =>
    intro p o n hp hn
    simp only [Refresh.materialize, IMAPFolder.GetSubFolders, IMAPFolders.preorder]
    refine nodup_ids_forest hb d (n + 1) o.subItems (hb.sub_nodup p o hp) ?_ ?_
    · intro c hc
      obtain ⟨r, hr, hrk, hrp, hne⟩ := (hb.sub p o hp c).mp hc
      exact hrk ▸ Refresh.ReachesRoot.step r n hr (hrp ▸ hne) (hrp ▸ hn)
    · intro c hc oc hfind
      obtain ⟨r, hr, hrk, hrp, hne⟩ := (hb.sub p o hp c).mp hc
      exact ih c oc (n + 1) hfind
        (hrk ▸ Refresh.ReachesRoot.step r n hr (hrp ▸ hne) (hrp ▸ hn))

/-- A row whose parent chain reaches the top is materialised in the tree of the
top-level row its chain ends at, as deep as its level says. -/
theorem materialize_reaches {rows : List Row} {st : Refresh.State}
    (hb : Refresh.Built rows st) :
    ∀ {n : Nat} {k : Int}, Refresh.ReachesRoot rows n k →
      ∀ e : Nat, ∃ ok, st.folderMap.find k = some ok ∧
        ∃ t ∈ st.vecObjects, ∃ ot, st.folderMap.find t = some ot ∧
          (Refresh.materialize st.folderMap e ok
              = Refresh.materialize st.folderMap (e + n) ot ∨
            Refresh.materialize st.folderMap e ok ∈
              (Refresh.materialize st.folderMap (e + n) ot).GetSubFolders.preorder) := by
  intro n k h
  induction h with
  | top r hr hp =>
    intro e
    obtain ⟨ok, hok⟩ := hb.find_of_mem (List.mem_map_of_mem Row.folderid hr)
    exact ⟨ok, hok, r.folderid, (hb.vec _).mpr ⟨r, hr, rfl, hp⟩, ok, hok, Or.inl rfl⟩
  | step r level hr hp _ ih =>
    intro e
    obtain ⟨op, hop, t, ht, ot, hot, hcase⟩ := ih (e + 1)
    obtain ⟨ok, hok⟩ := hb.find_of_mem (List.mem_map_of_mem Row.folderid hr)
    have hchild : r.folderid ∈ op.subItems :=
      (hb.sub _ op hop _).mpr ⟨r, hr, rfl, rfl, hp⟩
    have hin : Refresh.materialize st.folderMap e ok ∈
        (Refresh.materialize st.folderMap (e + 1) op).GetSubFolders.preorder :=
      mem_preorder_of_mem_vecObjects _ _
        ((materialize_children _ e op _).mpr ⟨r.folderid, hchild, ok, hok, rfl⟩)
    have harith : e + (level + 1) = e + 1 + level := by omega
    refine ⟨ok, hok, t, ht, ot, hot, Or.inr ?_⟩
    rw [harith]
    rcases hcase with h | h
    · rw [← h]; exact hin
    · exact preorder_trans _ _ hin _ h

/-- The tree of the refreshed directory, for a second pass that left the links
of `Refresh.Built`. -/
theorem Refresh_directory_eq (self : IMAPFolders) (rows : List Row) (iteration : List Int) :
    (self.Refresh (some rows) iteration).directory.preorder
      = preorder.list
          ((Refresh.secondPass (Refresh.firstPass self.GetAccountID rows)
              iteration).vecObjects.filterMap
            (fun key =>
              ((Refresh.secondPass (Refresh.firstPass self.GetAccountID rows)
                  iteration).folderMap.find key).map
                (Refresh.materialize
                  (Refresh.secondPass (Refresh.firstPass self.GetAccountID rows)
                    iteration).folderMap
                  (Refresh.secondPass (Refresh.firstPass self.GetAccountID rows)
                    iteration).folderMap.length))) := rfl

/-- Every id in the refreshed tree is the id of a row whose parent chain
reaches the top. -/
theorem Refresh_tree_sound {rows : List Row} {st : Refresh.State}
    (hb : Refresh.Built rows st) (depth : Nat) (f : IMAPFolder)
    (hf : f ∈ preorder.list (st.vecObjects.filterMap
      (fun key => (st.folderMap.find key).map (Refresh.materialize st.folderMap depth)))) :
    ∃ n, Refresh.ReachesRoot rows n f.GetID := by
  obtain ⟨g, hg, hcase⟩ := (mem_preorder_list f _).mp hf
  obtain ⟨t, ht, hgt⟩ := List.mem_filterMap.mp hg
  cases hfind : st.folderMap.find t with
  | none => simp [hfind] at hgt
  | some ot =>
    simp only [hfind, Option.map_some', Option.some.injEq] at hgt
    subst hgt
    obtain ⟨r, hr, hrk, hp⟩ := (hb.vec t).mp ht
    have htop : Refresh.ReachesRoot rows 0 t := hrk ▸ Refresh.ReachesRoot.top r hr hp
    have hx := materialize_at_or_below hb depth t ot hfind f.GetID (by
      rcases hcase with h | h
      · rw [h]; exact List.mem_cons_self _ _
      · exact List.mem_cons_of_mem _ (List.mem_map_of_mem IMAPFolder.GetID h))
    rcases hx with h | h
    · exact ⟨0, h ▸ htop⟩
    · obtain ⟨j, _, hjr⟩ := Ancestor_level h htop
      exact ⟨j, hjr⟩

/-- Every row whose parent chain reaches the top is in the refreshed tree. -/
theorem Refresh_tree_complete {rows : List Row} {st : Refresh.State}
    (hb : Refresh.Built rows st) {n : Nat} {k : Int} (h : Refresh.ReachesRoot rows n k) :
    ∃ f ∈ preorder.list (st.vecObjects.filterMap
        (fun key => (st.folderMap.find key).map
          (Refresh.materialize st.folderMap st.folderMap.length))),
      f.GetID = k := by
  have hlen : st.folderMap.length = rows.length := by
    have := congrArg List.length hb.keys_eq
    simpa [FolderMap.keys] using this
  have hn := ReachesRoot_lt_length hb.ids_nodup h
  obtain ⟨ok, hok, t, ht, ot, hot, hcase⟩ := materialize_reaches hb h (st.folderMap.length - n)
  have harith : st.folderMap.length - n + n = st.folderMap.length := by omega
  rw [harith] at hcase
  have hroot : Refresh.materialize st.folderMap st.folderMap.length ot ∈
      st.vecObjects.filterMap (fun key => (st.folderMap.find key).map
        (Refresh.materialize st.folderMap st.folderMap.length)) :=
    List.mem_filterMap.mpr ⟨t, ht, by simp [hot]⟩
  refine ⟨Refresh.materialize st.folderMap (st.folderMap.length - n) ok, ?_, ?_⟩
  · rcases hcase with h1 | h1
    · rw [h1]
      exact (mem_preorder_list _ _).mpr ⟨_, hroot, Or.inl rfl⟩
    · exact (mem_preorder_list _ _).mpr ⟨_, hroot, Or.inr h1⟩
  · simp only [IMAPFolder.GetID, materialize_data]
    exact hb.id_of k ok hok

/-- The second pass reports orphans only. -/
theorem secondPass_errors_orphan (account : Int) (rows : List Row) (iteration : List Int)
    (hids : (rows.map Row.folderid).Nodup)
    (hiter : iteration.Perm (Refresh.firstPass account rows).keys)
    (e : ErrorReport)
    (he : e ∈ (Refresh.secondPass (Refresh.firstPass account rows) iteration).errors) :
    ∃ r ∈ rows, e.folderID = r.folderid ∧ r.folderparentid ≠ -1 ∧
      r.folderparentid ∉ rows.map Row.folderid := by
  have herr := foldl_visit_errors iteration
    { vecObjects := [], folderMap := Refresh.firstPass account rows, errors := [] }
  simp only [List.nil_append] at herr
  unfold Refresh.secondPass at he
  rw [herr] at he
  obtain ⟨k, hk, hke⟩ := List.mem_map.mp he
  obtain ⟨hmem, horph⟩ := List.mem_filter.mp hk
  rw [firstPass_keys account rows hids] at hiter
  obtain ⟨r, hr, hrk⟩ := List.mem_map.mp (hiter.mem_iff.mp hmem)
  subst hrk
  subst hke
  refine ⟨r, hr, rfl, ?_⟩
  simp only [Refresh.isOrphan, firstPass_parentOf_row account rows hids r hr,
    Bool.and_eq_true, decide_eq_true_eq, Bool.not_eq_true'] at horph
  refine ⟨horph.1, ?_⟩
  intro hin
  have := (firstPass_isSome_iff account rows hids r.folderparentid).mpr hin
  rw [horph.2] at this
  exact Bool.false_ne_true this

/-- C16.  Tree partition after `Refresh`.  For rows with distinct ids and every
iteration order of the folder map, every folder of the refreshed tree occurs
once among the children lists of the tree (the ids in its pre-order listing are
distinct) and is in a children list of the heap; and over all folder objects,
reachable or not, no children list holds a key twice, no key is both in
`vecObjects` of the refreshed directory and among the sub folders of an object,
and no key is among the sub folders of two objects. -/
theorem Refresh_tree_partition (self : IMAPFolders) (rows : List Row) (iteration : List Int)
    (hids : (rows.map Row.folderid).Nodup)
    (hiter : iteration.Perm (Refresh.firstPass self.GetAccountID rows).keys) :
    ((self.Refresh (some rows) iteration).directory.preorder.map IMAPFolder.GetID).Nodup ∧
    (∀ f ∈ (self.Refresh (some rows) iteration).directory.preorder,
      f.GetID ∈
          (Refresh.secondPass (Refresh.firstPass self.GetAccountID rows) iteration).vecObjects ∨
        ∃ p op,
          (Refresh.secondPass (Refresh.firstPass self.GetAccountID rows)
            iteration).folderMap.find p = some op ∧ f.GetID ∈ op.subItems) ∧
    (Refresh.secondPass (Refresh.firstPass self.GetAccountID rows) iteration).vecObjects.Nodup ∧
    (∀ p o,
      (Refresh.secondPass (Refresh.firstPass self.GetAccountID rows) iteration).folderMap.find p
        = some o → o.subItems.Nodup) ∧
    (∀ k ∈
        (Refresh.secondPass (Refresh.firstPass self.GetAccountID rows) iteration).vecObjects,
      ∀ p o,
        (Refresh.secondPass (Refresh.firstPass self.GetAccountID rows) iteration).folderMap.find
          p = some o → k ∉ o.subItems) ∧
    (∀ k p1 o1 p2 o2,
      (Refresh.secondPass (Refresh.firstPass self.GetAccountID rows) iteration).folderMap.find p1
        = some o1 →
      (Refresh.secondPass (Refresh.firstPass self.GetAccountID rows) iteration).folderMap.find p2
        = some o2 →
      k ∈ o1.subItems → k ∈ o2.subItems → p1 = p2) := by
  have htree := Refresh_directory_preorder self rows iteration
  have hb := secondPass_built self.GetAccountID rows iteration hids hiter
  rw [Refresh_directory_eq] at htree ⊢
  generalize Refresh.secondPass (Refresh.firstPass self.GetAccountID rows) iteration = st
    at hb htree ⊢
  refine ⟨?_, ?_, hb.vec_nodup, hb.sub_nodup, ?_, ?_⟩
  · refine nodup_ids_forest hb st.folderMap.length 0 st.vecObjects hb.vec_nodup ?_ ?_
    · intro c hc
      obtain ⟨r, hr, hrk, hp⟩ := (hb.vec c).mp hc
      exact hrk ▸ Refresh.ReachesRoot.top r hr hp
    · intro c hc oc hfind
      obtain ⟨r, hr, hrk, hp⟩ := (hb.vec c).mp hc
      exact materialize_nodup hb _ c oc 0 hfind (hrk ▸ Refresh.ReachesRoot.top r hr hp)
  · exact htree
  · intro k hk p o hp hmem
    obtain ⟨r, hr, hrk, hrp⟩ := (hb.vec k).mp hk
    obtain ⟨r', hr', hrk', hrp', hne⟩ := (hb.sub p o hp k).mp hmem
    have := row_eq_of_id hb.ids_nodup hr hr' (hrk.trans hrk'.symm)
    subst this
    exact hne (hrp'.symm.trans hrp)
  · intro k p1 o1 p2 o2 h1 h2 hk1 hk2
    obtain ⟨r, hr, hrk, hrp, _⟩ := (hb.sub p1 o1 h1 k).mp hk1
    obtain ⟨r', hr', hrk', hrp', _⟩ := (hb.sub p2 o2 h2 k).mp hk2
    have := row_eq_of_id hb.ids_nodup hr hr' (hrk.trans hrk'.symm)
    subst this
    exact hrp.symm.trans hrp'

/-- C16, witness: the scenario of the spec, with the map iterated in the order
3, 1, 2; the refreshed tree holds the ids 1 and 2, each once. -/
theorem Refresh_tree_partition_witness :
    ((IMAPFolders.ctor 7 (-1)).Refresh (some Example.scenario)
      [3, 1, 2]).directory.preorder.map IMAPFolder.GetID = [1, 2] ∧
    (((IMAPFolders.ctor 7 (-1)).Refresh (some Example.scenario)
      [3, 1, 2]).directory.preorder.map IMAPFolder.GetID).Nodup :=
  ⟨by decide,
    (Refresh_tree_partition (IMAPFolders.ctor 7 (-1)) Example.scenario [3, 1, 2]
      (by decide) (by decide)).1⟩

/-- C20.  `Refresh` drops unreachable rows silently unless their own parent row
is missing.  For rows with distinct ids and every iteration order of the folder
map: an id occurs in the refreshed tree if and only if following parent ids
from its row reaches `-1` through fetched rows only; and a row whose parent row
was fetched but whose parent chain does not reach `-1` (it ends at a missing
parent or runs in a loop, as for a row that is its own parent) is among the sub
folders of its parent's folder object, occurs nowhere in the refreshed tree, and
no error report names it. -/
theorem Refresh_reachable_iff_chain (self : IMAPFolders) (rows : List Row)
    (iteration : List Int)
    (hids : (rows.map Row.folderid).Nodup)
    (hiter : iteration.Perm (Refresh.firstPass self.GetAccountID rows).keys) :
    (∀ k : Int,
      (∃ f ∈ (self.Refresh (some rows) iteration).directory.preorder, f.GetID = k) ↔
        Refresh.chainReachesRoot rows rows.length k = true) ∧
    (∀ r ∈ rows, r.folderparentid ≠ -1 → r.folderparentid ∈ rows.map Row.folderid →
      Refresh.chainReachesRoot rows rows.length r.folderid = false →
      (∃ o,
        (Refresh.secondPass (Refresh.firstPass self.GetAccountID rows)
          iteration).folderMap.find r.folderparentid = some o ∧ r.folderid ∈ o.subItems) ∧
      (∀ f ∈ (self.Refresh (some rows) iteration).directory.preorder,
        f.GetID ≠ r.folderid) ∧
      (∀ e ∈ (self.Refresh (some rows) iteration).errors, e.folderID ≠ r.folderid)) := by
  have hb := secondPass_built self.GetAccountID rows iteration hids hiter
  have herrs := secondPass_errors_orphan self.GetAccountID rows iteration hids hiter
  have hE : (self.Refresh (some rows) iteration).errors
      = (Refresh.secondPass (Refresh.firstPass self.GetAccountID rows) iteration).errors := rfl
  rw [hE, Refresh_directory_eq]
  generalize Refresh.secondPass (Refresh.firstPass self.GetAccountID rows) iteration = st
    at hb herrs ⊢
  have hiff : ∀ k : Int,
      (∃ f ∈ preorder.list (st.vecObjects.filterMap
          (fun key => (st.folderMap.find key).map
            (Refresh.materialize st.folderMap st.folderMap.length))), f.GetID = k) ↔
        Refresh.chainReachesRoot rows rows.length k = true := by
    intro k
    rw [chainReachesRoot_iff hids]
    constructor
    · rintro ⟨f, hf, hfk⟩
      exact hfk ▸ Refresh_tree_sound hb _ f hf
    · rintro ⟨n, hn⟩
      exact Refresh_tree_complete hb hn
  refine ⟨hiff, ?_⟩
  intro r hr hne hin hchain
  refine ⟨?_, ?_, ?_⟩
  · obtain ⟨o, ho⟩ := hb.find_of_mem hin
    exact ⟨o, ho, (hb.sub _ o ho _).mpr ⟨r, hr, rfl, rfl, hne⟩⟩
  · intro f hf heq
    have := (hiff r.folderid).mp ⟨f, hf, heq⟩
    rw [hchain] at this
    exact Bool.false_ne_true this
  · intro e he heq
    obtain ⟨r', hr', hk, _, hnotin⟩ := herrs e he
    have := row_eq_of_id hids hr' hr (hk.symm.trans heq)
    subst this
    exact hnotin hin

/-- C20, witness: among `Inbox`, `Work` below it, a row that is its own parent,
two rows that are each other's parent, the orphan `Ghost` and a row below it,
the refreshed tree holds `Inbox` and `Work` only, the single report names
`Ghost`, and the row that is its own parent hangs below its own folder object. -/
theorem Refresh_reachable_iff_chain_witness :
    ((IMAPFolders.ctor 7 (-1)).Refresh (some Example.tangled)
      [9, 8, 7, 6, 5, 2, 1]).directory.preorder.map IMAPFolder.GetID = [1, 2] ∧
    ((IMAPFolders.ctor 7 (-1)).Refresh (some Example.tangled)
      [9, 8, 7, 6, 5, 2, 1]).errors = [Refresh.orphanReport 99 8] ∧
    Example.tangled.map (fun r => Refresh.chainReachesRoot Example.tangled
      Example.tangled.length r.folderid) = [true, true, false, false, false, false, false] ∧
    (∃ o,
      (Refresh.secondPass (Refresh.firstPass 7 Example.tangled)
        [9, 8, 7, 6, 5, 2, 1]).folderMap.find 5 = some o ∧ (5 : Int) ∈ o.subItems) :=
  ⟨by decide, by decide, by decide,
    ((Refresh_reachable_iff_chain (IMAPFolders.ctor 7 (-1)) Example.tangled
      [9, 8, 7, 6, 5, 2, 1] (by decide) (by decide)).2 ⟨5, 5, "Self", 0, 0, ""⟩
      (by decide) (by decide) (by decide) (by decide)).1⟩

end HM
